import Mathlib

/-!
# Garage booking server (`backend/server.js`): allocation and reconciliation

A shallow embedding of the allocation logic of `server.js`:
`parseDMY`, `formatDateDMY`, `getAvailableGarage`, the handlers
`POST /bookings`, `POST /bookings/:id/garaj`, `.../reject`, `.../cancel`,
`.../extend`, `DELETE /bookings/:id`, and `checkQueue`.

Conventions of the embedding.

* JavaScript numbers that occur here are integers; `NaN` is `none` in
  `Option Int`.  Numbers are exact (no rounding of integers above `2^53`).
* A `Date` built by `new Date(y, m, d)` is a calendar day at local midnight.
  The local time zone is taken to be UTC.  `JsDate.invalid` is `Invalid Date`.
* The Realtime Database is a list of records with distinct keys; keys are
  natural numbers, ordered the way `localeCompare` orders the real keys.
* Response texts and the informational `message` field are not modelled.
-/

namespace Garage

/-! ## JavaScript primitives -/

/-- A value of a request body field: absent (or `null`), a string, or an
integer number. -/
inductive JsVal where
  | undefined
  | str (s : String)
  | num (n : Int)
deriving DecidableEq, Repr

/-- JavaScript truthiness (`!v` is its negation). -/
def JsVal.truthy : JsVal → Bool
  | .undefined => false
  | .str s => !s.data.isEmpty
  | .num n => n != 0

/-- White space skipped by `parseInt` (ECMAScript `StrWhiteSpaceChar`). -/
def isWhiteSpace (c : Char) : Bool :=
  let n := c.toNat
  n == 0x20 || n == 0x09 || n == 0x0A || n == 0x0B || n == 0x0C || n == 0x0D ||
  n == 0xA0 || n == 0x1680 || (0x2000 ≤ n && n ≤ 0x200A) || n == 0x2028 ||
  n == 0x2029 || n == 0x202F || n == 0x205F || n == 0x3000 || n == 0xFEFF

/-- Value of a character as a digit (`0-9`, `a-z`, `A-Z`). -/
def digitVal (c : Char) : Option Nat :=
  let n := c.toNat
  if 48 ≤ n ∧ n ≤ 57 then some (n - 48)
  else if 97 ≤ n ∧ n ≤ 122 then some (n - 87)
  else if 65 ≤ n ∧ n ≤ 90 then some (n - 55)
  else none

/-- The digits of the longest prefix of radix-`radix` digits. -/
def takeDigits (radix : Nat) : List Char → List Nat
  | [] => []
  | c :: cs =>
    match digitVal c with
    | some v => if v < radix then v :: takeDigits radix cs else []
    | none => []

/-- Strip an optional sign. -/
def stripSign : List Char → Bool × List Char
  | c :: r => if c = '-' then (true, r) else if c = '+' then (false, r) else (false, c :: r)
  | [] => (false, [])

/-- Strip an optional `0x` / `0X` prefix, giving the radix. -/
def stripRadix : List Char → Nat × List Char
  | c :: x :: r =>
    if c = '0' ∧ (x = 'x' ∨ x = 'X') then (16, r) else (10, c :: x :: r)
  | s => (10, s)

/-- The function `parseInt(string)` with no radix argument, on the characters
of the string. -/
def parseIntChars (s : List Char) : Option Int :=
  let (neg, s2) := stripSign (s.dropWhile isWhiteSpace)
  let (radix, s3) := stripRadix s2
  match takeDigits radix s3 with
  | [] => none
  | ds =>
    let v : Int := ((ds.foldl (fun a d => a * radix + d) 0 : Nat) : Int)
    some (if neg then -v else v)

/-- The call `parseInt(v)` for a request value: the argument is first turned
into a string, so an integer number parses to itself and `undefined` to
`NaN`. -/
def parseInt : JsVal → Option Int
  | .undefined => none
  | .str s => parseIntChars s.data
  | .num n => some n

/-! ## Dates -/

/-- A JavaScript `Date`: `Invalid Date`, or a calendar day (month `0..11`). -/
inductive JsDate where
  | invalid
  | ymd (year : Int) (month : Nat) (day : Nat)
deriving DecidableEq, Repr

def isLeap (y : Int) : Bool :=
  (y % 4 == 0 && y % 100 != 0) || y % 400 == 0

/-- Days of month `m` (`0..11`) of year `y`. -/
def daysInMonth (y : Int) (m : Nat) : Int :=
  match m with
  | 1 => if isLeap y then 29 else 28
  | 3 => 30
  | 5 => 30
  | 8 => 30
  | 10 => 30
  | _ => 31

def prevMonth (y : Int) (m : Nat) : Int × Nat :=
  if m = 0 then (y - 1, 11) else (y, m - 1)

def nextMonth (y : Int) (m : Nat) : Int × Nat :=
  if m = 11 then (y + 1, 0) else (y, m + 1)

/-- Carry a day number that lies outside its month into the neighbouring
months, one month per step. -/
def carryDays : Nat → Int → Nat → Int → Int × Nat × Int
  | 0, y, m, d => (y, m, d)
  | fuel + 1, y, m, d =>
    if d < 1 then
      let p := prevMonth y m
      carryDays fuel p.1 p.2 (d + daysInMonth p.1 p.2)
    else if daysInMonth y m < d then
      let n := nextMonth y m
      carryDays fuel n.1 n.2 (d - daysInMonth y m)
    else (y, m, d)

/-- The time range of a `Date`: 100 000 000 days either side of 1 January
1970, that is 20 April -271821 to 13 September 275760. -/
def inDateRange (y : Int) (m : Nat) (d : Int) : Bool :=
  (-271821 < y || (y == -271821 && (3 < m || (m == 3 && 20 ≤ d)))) &&
  (y < 275760 || (y == 275760 && (m < 8 || (m == 8 && d ≤ 13))))

/-- The year that the `Date` constructor takes a year argument for: `0..99`
mean `1900..1999`. -/
def makeFullYear (y : Int) : Int :=
  if 0 ≤ y ∧ y ≤ 99 then 1900 + y else y

/-- The constructor `new Date(y, m, d)` on integers: a year `0..99` means
`1900 + y`, months outside `0..11` carry into the year, days outside the
month carry into the neighbouring months, and a day outside the time range
is `Invalid Date`. -/
def mkDate (y m d : Int) : JsDate :=
  let c := carryDays (d.natAbs + 1) (makeFullYear y + m / 12) (m % 12).toNat d
  if inDateRange c.1 c.2.1 c.2.2 then .ymd c.1 c.2.1 c.2.2.toNat else .invalid

/-- The constructor `new Date(y, m, d)` on numbers: any `NaN` argument gives
`Invalid Date`. -/
def newDate (y m d : Option Int) : JsDate :=
  match y, m, d with
  | some y, some m, some d => mkDate y m d
  | _, _, _ => .invalid

def JsDate.getFullYear : JsDate → Option Int
  | .invalid => none
  | .ymd y _ _ => some y

def JsDate.getMonth : JsDate → Option Int
  | .invalid => none
  | .ymd _ m _ => some (m : Int)

def JsDate.getDate : JsDate → Option Int
  | .invalid => none
  | .ymd _ _ d => some (d : Int)

/-- The comparison `a <= b` of two dates (by time value; false when either is
`Invalid Date`). -/
def JsDate.le : JsDate → JsDate → Bool
  | .ymd y1 m1 d1, .ymd y2 m2 d2 =>
    decide (y1 < y2) || (y1 == y2 && (decide (m1 < m2) || (m1 == m2 && decide (d1 ≤ d2))))
  | _, _ => false

/-- Addition of numbers, `NaN` absorbing. -/
def jsAdd (a b : Option Int) : Option Int :=
  match a, b with
  | some x, some y => some (x + y)
  | _, _ => none

/-- The expression `new Date(d.getFullYear(), d.getMonth() + 1, 0)`: the last
day of the month of `d`. -/
def lastDayOfMonth (d : JsDate) : JsDate :=
  newDate d.getFullYear (jsAdd d.getMonth (some 1)) (some 0)

/-! ## Text of dates -/

/-- Decimal digits of a natural number, least significant first. -/
def natDigitsRev : Nat → Nat → List Char
  | 0, _ => []
  | fuel + 1, n =>
    Char.ofNat (48 + n % 10) :: (if n < 10 then [] else natDigitsRev fuel (n / 10))

/-- The text `String(n)` of a number. -/
def numToChars : Option Int → List Char
  | none => ['N', 'a', 'N']
  | some (Int.ofNat n) => (natDigitsRev (n + 1) n).reverse
  | some (Int.negSucc n) => '-' :: (natDigitsRev (n + 2) (n + 1)).reverse

/-- The call `s.padStart(2, '0')`. -/
def padStart2 (s : List Char) : List Char :=
  match s with
  | [] => ['0', '0']
  | [c] => ['0', c]
  | _ => s

/-- The function `formatDateDMY(date)`. -/
def formatDateDMY (date : JsDate) : String :=
  let d := padStart2 (numToChars date.getDate)
  let m := padStart2 (numToChars (jsAdd date.getMonth (some 1)))
  let y := numToChars date.getFullYear
  String.mk (d ++ '/' :: m ++ '/' :: y)

/-- The call `s.split(sep)` for a one-character separator. -/
def splitOn (sep : Char) : List Char → List (List Char)
  | [] => [[]]
  | c :: cs =>
    if c = sep then [] :: splitOn sep cs
    else
      match splitOn sep cs with
      | p :: ps => (c :: p) :: ps
      | [] => [[c]]

def isAsciiDigit (c : Char) : Bool := 48 ≤ c.toNat && c.toNat ≤ 57

/-- The test `s.match(/^\d{4}-\d{2}-\d{2}$/)`. -/
def matchesYMD (s : List Char) : Bool :=
  match s with
  | [y1, y2, y3, y4, a, m1, m2, b, d1, d2] =>
    isAsciiDigit y1 && isAsciiDigit y2 && isAsciiDigit y3 && isAsciiDigit y4 &&
    a == '-' && isAsciiDigit m1 && isAsciiDigit m2 && b == '-' &&
    isAsciiDigit d1 && isAsciiDigit d2
  | _ => false

/-- The function `parseDMY(dateStr)`; `none` is a thrown error.  The argument
is `none` when the field read is absent. -/
def parseDMY (dateStr : Option String) : Option JsDate :=
  match dateStr with
  | none => none
  | some str =>
    let s := str.data
    if s.isEmpty then none
    else
      match splitOn '/' s with
      | [p1, p2, p3] =>
        match parseIntChars p1, parseIntChars p2, parseIntChars p3 with
        | some d, some m, some y => some (mkDate y (m - 1) d)
        | _, _, _ => none
      | _ =>
        if matchesYMD s then
          match splitOn '-' s with
          | [p1, p2, p3] =>
            some (newDate (parseIntChars p1) (jsAdd (parseIntChars p2) (some (-1)))
              (parseIntChars p3))
          | _ => none
        else none

/-! ## The store -/

inductive Status where
  | Pending
  | Approved
  | Rejected
  | Cancelled
deriving DecidableEq, Repr

/-- A record under `bookings/`.  A field that the record does not have (or
that is `null`) is `none`; for the three name fields it is the empty string.
`duration` is `none` also for `NaN`. -/
structure Booking where
  id : Nat
  username : String
  studentName : String
  studentID : String
  startMonth : Option String
  endMonth : Option String
  duration : Option Int
  garaj : Option Int
  status : Status
deriving DecidableEq, Repr

/-- The content of `bookingsRef`, as `snapshotToArray` returns it. -/
abbrev Store := List Booking

def totalGaraj : Nat := 8

/-- The test `!s` on a text field. -/
def falsyStr : Option String → Bool
  | none => true
  | some s => s.data.isEmpty

/-- The test `!b.garaj`. -/
def falsyNum : Option Int → Bool
  | none => true
  | some n => n == 0

/-- The call `bookingsRef.child(id).once('value')`. -/
def child (store : Store) (id : Nat) : Option Booking :=
  store.find? (fun b => b.id == id)

/-- The call `bookingsRef.child(id).update(data)`: the fields are merged into
the record, and a record that does not exist yet is created from them
(`fresh` is the record that holds just these fields). -/
def update (store : Store) (id : Nat) (data : Booking → Booking) (fresh : Booking) : Store :=
  if store.any (fun b => b.id == id) then
    store.map (fun b => if b.id == id then data b else b)
  else store ++ [fresh]

/-- The call `bookingsRef.child(id).remove()`. -/
def remove (store : Store) (id : Nat) : Store :=
  store.filter (fun b => b.id != id)

/-! ## `getAvailableGarage` -/

/-- The comparison of `getAvailableGarage`, lines 130-133: both periods are
taken to the last day of their end-point months and compared as closed
intervals. -/
def periodsIntersect (startDate endDate bStart bEnd : JsDate) : Bool :=
  (lastDayOfMonth startDate).le (lastDayOfMonth bEnd) &&
  (lastDayOfMonth bStart).le (lastDayOfMonth endDate)

/-- The body of the `forEach` of `getAvailableGarage`: does booking `b` put
its `garaj` into `occupiedGaraj`?  A parse error is caught and adds nothing. -/
def occupies (startDate endDate : JsDate) (b : Booking) : Bool :=
  if falsyNum b.garaj || falsyStr b.startMonth || falsyStr b.endMonth then false
  else
    match parseDMY b.startMonth, parseDMY b.endMonth with
    | some bStart, some bEnd => periodsIntersect startDate endDate bStart bEnd
    | _, _ => false

/-- The array `availableGaraj` of `getAvailableGarage` before filtering:
`Array.from({length: totalGaraj}, (_, i) => i + 1)`. -/
def availableGaraj : List Int := (List.range totalGaraj).map (fun (i : Nat) => (i : Int) + 1)

/-- The set `occupiedGaraj` that the `forEach` of `getAvailableGarage` fills
from the approved bookings. -/
def occupiedGaraj (store : Store) (startDate endDate : JsDate) : List Int :=
  ((store.filter (fun b => b.status == Status.Approved)).filter
    (occupies startDate endDate)).filterMap (fun b => b.garaj)

/-- The function `getAvailableGarage(startMonthStr, endMonthStr)`; `none` is a
thrown error. -/
def getAvailableGarage (store : Store) (startMonthStr endMonthStr : Option String) :
    Option (List Int) :=
  match parseDMY startMonthStr, parseDMY endMonthStr with
  | some startDate, some endDate =>
    some (availableGaraj.filter (fun g => !(occupiedGaraj store startDate endDate).contains g))
  | _, _ => none

/-! ## Request handlers -/

/-- What a handler answers.  Each constructor is one `res.status(..).json(..)`
site (or family of sites with the same meaning). -/
inductive Response where
  /-- 200, `success: true`. -/
  | ok
  /-- 201, `success: true` (`POST /bookings`). -/
  | created
  /-- 400, a required field of the request is missing. -/
  | missingFields
  /-- 400 with `availableGaraj`: the asked garage is not available. -/
  | slotUnavailable (availableGaraj : List Int)
  /-- 400, `extra` is not a positive number. -/
  | invalidExtension
  /-- 400, only an approved booking with a garage can be extended. -/
  | notExtendable
  /-- 400, the garage is booked by someone else in the extension period. -/
  | extensionConflict
  /-- 404. -/
  | notFound
  /-- 500, from the `catch` of the handler. -/
  | serverError
deriving DecidableEq, Repr

/-- The body of `POST /bookings`. -/
structure CreateRequest where
  username : String
  studentName : String
  studentID : String
  startMonth : JsVal
  duration : JsVal
  garaj : JsVal
deriving DecidableEq, Repr

/-- The text `01/${startMonth.substring(5, 7)}/${startMonth.substring(0, 4)}`. -/
def startDateText (startMonth : String) : String :=
  String.mk (['0', '1', '/'] ++ (startMonth.data.drop 5).take 2 ++ '/' :: startMonth.data.take 4)

/-- The date `new Date(startDate.getFullYear(), startDate.getMonth() + durationMonths, 0)`. -/
def endDateOf (startDate : JsDate) (durationMonths : Option Int) : JsDate :=
  newDate startDate.getFullYear (jsAdd startDate.getMonth durationMonths) (some 0)

/-- The object `bookingData` of `POST /bookings` as it is first built
(lines 372-382), with the key that `push` gives it. -/
def bookingData (key : Nat) (req : CreateRequest) (startDate : JsDate) : Booking :=
  { id := key, username := req.username, studentName := req.studentName,
    studentID := req.studentID,
    startMonth := some (formatDateDMY startDate),
    endMonth := some (formatDateDMY (endDateOf startDate (parseInt req.duration))),
    duration := parseInt req.duration, garaj := none, status := .Pending }

/-- The test of line 358: a required field is missing. -/
def missingField (req : CreateRequest) : Bool :=
  req.studentName.data.isEmpty || req.studentID.data.isEmpty || !req.startMonth.truthy ||
    !req.duration.truthy || req.username.data.isEmpty

/-- Lines 386-416 of `POST /bookings`: what is written and answered once
`getAvailableGarage` has returned `available`. -/
def allocate (store : Store) (data : Booking) (available : List Int) (preferredGaraj : JsVal) :
    Response × Store :=
  match available with
  | first :: _ =>
    let preferred := if preferredGaraj.truthy then parseInt preferredGaraj else none
    match preferred with
    | some wanted =>
      if wanted != 0 then
        if !available.contains wanted then (.slotUnavailable available, store)
        else (.created, store ++ [{ data with garaj := some wanted, status := .Approved }])
      else (.created, store ++ [{ data with garaj := some first, status := .Approved }])
    | none => (.created, store ++ [{ data with garaj := some first, status := .Approved }])
  | [] => (.created, store ++ [data])

/-- The handler `POST /bookings`.  `key` is the key that `bookingsRef.push`
generates. -/
def createBooking (store : Store) (key : Nat) (req : CreateRequest) : Response × Store :=
  if missingField req then (.missingFields, store)
  else
    match req.startMonth with
    | .str startMonth =>
      match parseDMY (some (startDateText startMonth)) with
      | none => (.serverError, store)
      | some startDate =>
        let data := bookingData key req startDate
        match getAvailableGarage store data.startMonth data.endMonth with
        | none => (.serverError, store)
        | some available => allocate store data available req.garaj
    | _ => (.serverError, store)

/-- A record that has no field but its key and a status. -/
def bareRecord (id : Nat) (status : Status) : Booking :=
  { id := id, username := "", studentName := "", studentID := "", startMonth := none,
    endMonth := none, duration := none, garaj := none, status := status }

/-- The handler `POST /bookings/:id/garaj`. -/
def assignGaraj (store : Store) (id : Nat) (garaj : JsVal) : Response × Store :=
  if !garaj.truthy then (.missingFields, store)
  else
    match child store id with
    | none => (.notFound, store)
    | some booking =>
      match getAvailableGarage store booking.startMonth booking.endMonth with
      | none => (.serverError, store)
      | some available =>
        match parseInt garaj with
        | none => (.slotUnavailable available, store)
        | some g =>
          if !available.contains g then (.slotUnavailable available, store)
          else
            (.ok, update store id (fun b => { b with garaj := some g, status := .Approved })
              { bareRecord id .Approved with garaj := some g })

/-- The handler `POST /bookings/:id/reject`. -/
def rejectBooking (store : Store) (id : Nat) : Response × Store :=
  (.ok, update store id (fun b => { b with status := .Rejected }) (bareRecord id .Rejected))

/-- The test of the `some` callback of the extend handler (lines 532-558) for
another approved booking `b`. -/
def extendOverlaps (booking : Booking) (checkStartDate : JsDate) (newEndDateStr : String)
    (b : Booking) : Bool :=
  if falsyNum b.garaj || b.garaj != booking.garaj then false
  else
    match parseDMY b.startMonth, parseDMY b.endMonth,
      parseDMY (some (formatDateDMY checkStartDate)), parseDMY (some newEndDateStr) with
    | some bStart, some bEnd, some checkStart, some checkEnd =>
      checkStart.le (lastDayOfMonth bEnd) && (lastDayOfMonth bStart).le (lastDayOfMonth checkEnd)
    | _, _, _, _ => false

/-- The date `checkStartDate` of the extend handler (line 522): the first day
of the month after the current end. -/
def checkStartDateOf (currentEndDate : JsDate) : JsDate :=
  newDate currentEndDate.getFullYear (jsAdd currentEndDate.getMonth (some 1)) (some 1)

/-- The date `newEndDate` of the extend handler (line 525). -/
def newEndDateOf (checkStartDate : JsDate) (extraMonths : Int) : JsDate :=
  newDate checkStartDate.getFullYear (jsAdd checkStartDate.getMonth (some extraMonths)) (some 0)

/-- The handler `POST /bookings/:id/extend`. -/
def extendBooking (store : Store) (id : Nat) (extra : JsVal) : Response × Store :=
  match parseInt extra with
  | none => (.invalidExtension, store)
  | some extraMonths =>
    if extraMonths ≤ 0 then (.invalidExtension, store)
    else
      match child store id with
      | none => (.notExtendable, store)
      | some booking =>
        if booking.status != .Approved || falsyNum booking.garaj then (.notExtendable, store)
        else
          match parseDMY booking.endMonth with
          | none => (.serverError, store)
          | some currentEndDate =>
            let checkStartDate := checkStartDateOf currentEndDate
            let newEndDate := newEndDateOf checkStartDate extraMonths
            let newEndDateStr := formatDateDMY newEndDate
            let allBookings := store.filter (fun b => b.id != id && b.status == .Approved)
            let isOverlap := allBookings.any (extendOverlaps booking checkStartDate newEndDateStr)
            if isOverlap then (.extensionConflict, store)
            else
              let newDuration := jsAdd booking.duration (some extraMonths)
              (.ok, update store id
                (fun b => { b with endMonth := some newEndDateStr, duration := newDuration })
                { booking with endMonth := some newEndDateStr, duration := newDuration })

/-! ## `checkQueue` -/

/-- The update of `checkQueue`, lines 636-641: the record `id` gets garage
`g` and the status Approved. -/
def promote (store : Store) (id : Nat) (g : Int) : Store :=
  update store id (fun r => { r with garaj := some g, status := .Approved })
    { bareRecord id .Approved with garaj := some g }

/-- The body of the `for` loop of `checkQueue` for the pending booking `b`
(lines 631-642): the store after it, or `none` when `getAvailableGarage`
throws. -/
def scanStep (store : Store) (b : Booking) : Option Store :=
  if falsyStr b.startMonth || falsyStr b.endMonth then some store
  else
    match getAvailableGarage store b.startMonth b.endMonth with
    | none => none
    | some [] => some store
    | some (first :: _) => some (promote store b.id first)

/-- The `for` loop of `checkQueue` over the sorted pending bookings.  A thrown
error leaves the loop (it is caught outside it, line 644). -/
def checkQueueLoop : List Booking → Store → Store
  | [], store => store
  | b :: rest, store =>
    match scanStep store b with
    | none => store
    | some next => checkQueueLoop rest next

/-- The `for` loop of `checkQueue` reaches the end of the list: no call of
`getAvailableGarage` throws. -/
def loopCompletes : List Booking → Store → Bool
  | [], _ => true
  | b :: rest, store =>
    match scanStep store b with
    | none => false
    | some next => loopCompletes rest next

/-- The pending bookings in the order of their keys. -/
def pendingBookings (store : Store) : List Booking :=
  (store.filter (fun b => b.status == Status.Pending)).insertionSort (fun a b => a.id ≤ b.id)

/-- One run of `checkQueue`. -/
def checkQueue (store : Store) : Store :=
  checkQueueLoop (pendingBookings store) store

/-- The handler `POST /bookings/:id/cancel`, with the `checkQueue` run it
starts. -/
def cancelBooking (store : Store) (id : Nat) : Response × Store :=
  (.ok, checkQueue (update store id (fun b => { b with status := .Cancelled, garaj := none })
    (bareRecord id .Cancelled)))

/-- The handler `DELETE /bookings/:id`, with the `checkQueue` run it starts. -/
def deleteBooking (store : Store) (id : Nat) : Response × Store :=
  (.ok, checkQueue (remove store id))

/-! ## Sequences of operations -/

/-- One operation on the store, run to its end before the next one starts. -/
inductive Op where
  | create (key : Nat) (req : CreateRequest)
  | assign (id : Nat) (garaj : JsVal)
  | reject (id : Nat)
  | cancel (id : Nat)
  | extend (id : Nat) (extra : JsVal)
  | delete (id : Nat)
  | checkQueue
deriving DecidableEq, Repr

def applyOp (store : Store) : Op → Store
  | .create key req => (createBooking store key req).2
  | .assign id garaj => (assignGaraj store id garaj).2
  | .reject id => (rejectBooking store id).2
  | .cancel id => (cancelBooking store id).2
  | .extend id extra => (extendBooking store id extra).2
  | .delete id => (deleteBooking store id).2
  | .checkQueue => checkQueue store

/-- The key of a `push` is new: no record of the store has it. -/
def Op.keyIsNew (store : Store) : Op → Bool
  | .create key _ => store.all (fun b => b.id != key)
  | _ => true

/-- The stores that a sequence of operations reaches from the empty store. -/
inductive Reachable : Store → Prop where
  | empty : Reachable []
  | step (store : Store) (op : Op) :
      Reachable store → op.keyIsNew store = true → Reachable (applyOp store op)

/-- The month of a date, counted from year 0. -/
def monthIndex : JsDate → Option Int
  | .invalid => none
  | .ymd y m _ => some (12 * y + m)

/-- Two closed month intervals `[s1, e1]` and `[s2, e2]` intersect. -/
def monthsIntersect (s1 e1 s2 e2 : Int) : Bool :=
  decide (s1 ≤ e2) && decide (s2 ≤ e1)

/-- Two different approved bookings hold the same garage in month periods
that intersect. -/
def doubleBooked (a b : Booking) : Bool :=
  a.id != b.id && a.status == .Approved && b.status == .Approved &&
  a.garaj.isSome && a.garaj == b.garaj &&
  match (parseDMY a.startMonth).bind monthIndex, (parseDMY a.endMonth).bind monthIndex,
    (parseDMY b.startMonth).bind monthIndex, (parseDMY b.endMonth).bind monthIndex with
  | some s1, some e1, some s2, some e2 => monthsIntersect s1 e1 s2 e2
  | _, _, _, _ => false

def noDoubleBooking (store : Store) : Bool :=
  store.all (fun a => store.all (fun b => !doubleBooked a b))

/-! ## Definitions used to state the properties -/

/-- Run a sequence of operations. -/
def run (store : Store) (ops : List Op) : Store :=
  ops.foldl applyOp store

/-- Every `create` of the sequence gets a key that is new when it runs. -/
def keysNew : Store → List Op → Bool
  | _, [] => true
  | store, op :: ops => op.keyIsNew store && keysNew (applyOp store op) ops

/-- What holds of the list that remains to be scanned and of the store during
a run of `checkQueue`: keys are distinct, and every booking still to be
scanned is in the store as it was read, with status Pending. -/
structure LoopInv (l : List Booking) (store : Store) : Prop where
  nodup : (store.map (fun b => b.id)).Nodup
  nodupList : (l.map (fun b => b.id)).Nodup
  mem : ∀ b ∈ l, b ∈ store
  pending : ∀ b ∈ l, b.status = .Pending

/-- The period `[pStart, pEnd]` lies within `[qStart, qEnd]`, on the last days
of the end-point months. -/
def periodWithin (pStart pEnd qStart qEnd : JsDate) : Bool :=
  ((lastDayOfMonth qStart).le (lastDayOfMonth pStart) ||
    lastDayOfMonth qStart == lastDayOfMonth pStart) &&
  ((lastDayOfMonth pEnd).le (lastDayOfMonth qEnd) ||
    lastDayOfMonth pEnd == lastDayOfMonth qEnd)

/-- Booking `b` holds garage `g` in a period that intersects
`[startDate, endDate]`: it is Approved, its garage is `g`, and its period
parses and intersects. -/
def holdsIn (b : Booking) (g : Int) (startDate endDate : JsDate) : Bool :=
  b.status == .Approved && b.garaj == some g &&
    match parseDMY b.startMonth, parseDMY b.endMonth with
    | some bStart, some bEnd => periodsIntersect startDate endDate bStart bEnd
    | _, _ => false

/-- The lowest garage of `1..totalGaraj` that no booking of `approvedSet`
holds in a period intersecting `[startDate, endDate]`. -/
def lowestAvailable (approvedSet : List Booking) (startDate endDate : JsDate) : Option Int :=
  availableGaraj.find? (fun g => approvedSet.all (fun b => !holdsIn b g startDate endDate))

/-- One step of the fold that claim C9 describes.  The state is the store
together with the approved set: the approved bookings at the start of the
pass and the promotions made so far.  An entry whose period parses gets the
lowest available garage and the status Approved, or is left as it is when no
garage is available; any other entry is left as it is. -/
def promoteStep (state : Store × List Booking) (p : Booking) : Store × List Booking :=
  match parseDMY p.startMonth, parseDMY p.endMonth with
  | some startDate, some endDate =>
    match lowestAvailable state.2 startDate endDate with
    | some g =>
      (state.1.map (fun r =>
          if r.id == p.id then { p with garaj := some g, status := .Approved } else r),
        state.2 ++ [{ p with garaj := some g, status := .Approved }])
    | none => state
  | _, _ => state

/-- One pass of the queue as claim C9 describes it: a left fold of
`promoteStep` over the Pending bookings in the order of their keys. -/
def checkQueueSpec (store : Store) : Store :=
  ((pendingBookings store).foldl promoteStep
    (store, store.filter (fun b => b.status == Status.Approved))).1

/-- Keys are distinct and the period of every Pending booking parses. -/
def WellFormed (store : Store) : Prop :=
  (store.map (fun b => b.id)).Nodup ∧
  ∀ b ∈ store, b.status = .Pending →
    (parseDMY b.startMonth).isSome = true ∧ (parseDMY b.endMonth).isSome = true

/-- A calendar day: month `0..11`, day within the month, within the range of
`Date`. -/
def JsDate.isDay : JsDate → Bool
  | .invalid => false
  | .ymd y m d => decide (m ≤ 11) && decide (1 ≤ d) && decide ((d : Int) ≤ daysInMonth y m) &&
      inDateRange y m d

/-- The number that a text of decimal digits denotes. -/
def digitsValue (l : List Char) : Nat :=
  l.foldl (fun a c => a * 10 + (c.toNat - 48)) 0

/-- The period of `b` cannot be compared: a field does not parse (or is
missing), or it parses to `Invalid Date`. -/
def periodUnusable (b : Booking) : Prop :=
  parseDMY b.startMonth = none ∨ parseDMY b.endMonth = none ∨
    parseDMY b.startMonth = some .invalid ∨ parseDMY b.endMonth = some .invalid

/-- The `garaj` of a record is `null` or a number of `1..totalGaraj`. -/
def garajInRange (b : Booking) : Prop :=
  b.garaj = none ∨ ∃ g, b.garaj = some g ∧ 1 ≤ g ∧ g ≤ (totalGaraj : Int)

/-- Every record of the store has its `garaj` in range. -/
def SlotsInRange (store : Store) : Prop :=
  ∀ b ∈ store, garajInRange b

/-! ## Example data -/

/-- The request of scenario A of the specification: three months from January 2025. -/
def scenarioRequest : CreateRequest :=
  { username := "ali", studentName := "Ali", studentID := "S1", startMonth := .str "2025-01",
    duration := .num 3, garaj := .undefined }

/-- A store in which each of the eight garages is held from January to March 2025. -/
def fullStore : Store :=
  (List.range 8).map (fun (i : Nat) =>
    { bookingData (i + 1) scenarioRequest (.ymd 2025 0 1) with
      garaj := some ((i : Int) + 1), status := .Approved })

/-- Three operations: a booking of January to March 2025, a booking of April
2025 with duration `-1`, and the extension of the first booking by one month. -/
def doubleBookingOps : List Op :=
  [.create 1 scenarioRequest,
   .create 2 { scenarioRequest with startMonth := .str "2025-04", duration := .num (-1) },
   .extend 1 (.num 1)]

/-- Scenario C of the specification: R2 holds garage 2 from February to April
2025 and R4 holds garage 2 in May 2025. -/
def scenarioCStore : Store :=
  [{ id := 2, username := "ali", studentName := "Ali", studentID := "S1",
     startMonth := some "01/02/2025", endMonth := some "30/04/2025", duration := some 3,
     garaj := some 2, status := .Approved },
   { id := 4, username := "abu", studentName := "Abu", studentID := "S2",
     startMonth := some "01/05/2025", endMonth := some "31/05/2025", duration := some 1,
     garaj := some 2, status := .Approved }]

/-- A Pending booking with key 9 for January to March 2025. -/
def pendingNine : Booking := bookingData 9 scenarioRequest (.ymd 2025 0 1)

/-- A Pending booking with key 10 for February to April 2025. -/
def pendingTen : Booking :=
  bookingData 10 { scenarioRequest with startMonth := .str "2025-02" } (.ymd 2025 1 1)

/-- Garages 1 to 7 are held from January to March 2025 and two bookings wait. -/
def queueStore : Store := fullStore.take 7 ++ [pendingNine, pendingTen]

/-- A Pending booking with key 11 for January to April 2025. -/
def pendingEleven : Booking :=
  bookingData 11 { scenarioRequest with duration := .num 4 } (.ymd 2025 0 1)

/-- Garages 1 to 6 are held from January to March 2025 and two bookings wait. -/
def queueStoreTwoFree : Store := fullStore.take 6 ++ [pendingNine, pendingEleven]

/-- An Approved booking with garage 1 whose `startMonth` is not a date. -/
def corruptBooking : Booking :=
  { id := 7, username := "ali", studentName := "Ali", studentID := "S1",
    startMonth := some "soon", endMonth := some "31/03/2025", duration := some 3,
    garaj := some 1, status := .Approved }

/-- A Pending booking with key 1 whose `startMonth` is not a date. -/
def unparsablePending : Booking := { pendingNine with id := 1, startMonth := some "soon" }

/-- A Pending booking with key 2 for January to March 2025. -/
def laterPending : Booking := { pendingNine with id := 2 }

/-- Operations with garage numbers of every kind: a preferred garage 99, a
preferred garage 3, assignments of `0`, 12, -4 and 5, a cancellation, the
rejection of an unknown key, an extension, a deletion and a run of
`checkQueue`. -/
def slotOps : List Op :=
  [.create 1 { scenarioRequest with garaj := .num 99 },
   .create 2 { scenarioRequest with garaj := .str "3" },
   .create 3 scenarioRequest,
   .assign 2 (.str "0"),
   .assign 2 (.num 12),
   .assign 2 (.num (-4)),
   .assign 2 (.num 5),
   .cancel 3,
   .reject 40,
   .assign 40 (.num 7),
   .extend 2 (.num 2),
   .delete 1,
   .checkQueue]

/-! ## Facts about dates -/

theorem JsDate.le_iff (a b : JsDate) :
    a.le b = true ↔ ∃ y1 m1 d1 y2 m2 d2, a = .ymd y1 m1 d1 ∧ b = .ymd y2 m2 d2 ∧
      (y1 < y2 ∨ (y1 = y2 ∧ (m1 < m2 ∨ (m1 = m2 ∧ d1 ≤ d2)))) := by
  cases a with
  | invalid => simp [JsDate.le]
  | ymd y1 m1 d1 =>
    cases b with
    | invalid => simp [JsDate.le]
    | ymd y2 m2 d2 =>
      simp only [JsDate.le, Bool.or_eq_true, Bool.and_eq_true, decide_eq_true_eq, beq_iff_eq]
      constructor
      · intro h
        exact ⟨y1, m1, d1, y2, m2, d2, rfl, rfl, h⟩
      · rintro ⟨a1, a2, a3, b1, b2, b3, h1, h2, h⟩
        injection h1 with e1 e2 e3
        injection h2 with e4 e5 e6
        subst e1 e2 e3 e4 e5 e6
        exact h

theorem JsDate.le_trans {a b c : JsDate} (hab : a.le b = true) (hbc : b.le c = true) :
    a.le c = true := by
  rw [JsDate.le_iff] at *
  obtain ⟨y1, m1, d1, y2, m2, d2, rfl, rfl, h1⟩ := hab
  obtain ⟨y2', m2', d2', y3, m3, d3, h, rfl, h2⟩ := hbc
  injection h with e1 e2 e3
  subst e1 e2 e3
  exact ⟨y1, m1, d1, y3, m3, d3, rfl, rfl, by omega⟩

theorem JsDate.le_refl_left {a b : JsDate} (hab : a.le b = true) : a.le a = true := by
  rw [JsDate.le_iff] at *
  obtain ⟨y1, m1, d1, y2, m2, d2, rfl, rfl, _⟩ := hab
  exact ⟨y1, m1, d1, y1, m1, d1, rfl, rfl, by omega⟩

theorem lastDayOfMonth_congr {a b : JsDate} (hy : a.getFullYear = b.getFullYear)
    (hm : a.getMonth = b.getMonth) : lastDayOfMonth a = lastDayOfMonth b := by
  simp [lastDayOfMonth, hy, hm]

theorem falsyStr_of_parseDMY {s : Option String} {d : JsDate} (h : parseDMY s = some d) :
    falsyStr s = false := by
  cases s with
  | none => simp [parseDMY] at h
  | some str =>
    by_cases he : str.data.isEmpty = true
    · simp [parseDMY, he] at h
    · simpa [falsyStr] using he

/-! ## `getAvailableGarage` -/

/-- The pool `1..totalGaraj`, as `Array.from({length: totalGaraj}, (_, i) => i + 1)` builds it. -/
theorem mem_pool (g : Int) :
    g ∈ availableGaraj ↔ 1 ≤ g ∧ g ≤ (totalGaraj : Int) := by
  simp only [availableGaraj, List.mem_map, List.mem_range, totalGaraj]
  constructor
  · rintro ⟨i, hi, rfl⟩
    omega
  · rintro ⟨h1, h2⟩
    exact ⟨(g - 1).toNat, by omega, by omega⟩

theorem pool_pairwise : availableGaraj.Pairwise (· < ·) := by
  decide

theorem occupies_iff (startDate endDate : JsDate) (b : Booking) :
    occupies startDate endDate b = true ↔
      falsyNum b.garaj = false ∧ ∃ bStart bEnd, parseDMY b.startMonth = some bStart ∧
        parseDMY b.endMonth = some bEnd ∧ periodsIntersect startDate endDate bStart bEnd = true := by
  unfold occupies
  constructor
  · intro h
    split at h
    · simp at h
    · rename_i hf
      simp only [Bool.or_eq_true, not_or, Bool.not_eq_true] at hf
      split at h
      · rename_i bStart bEnd h1 h2
        exact ⟨hf.1.1, bStart, bEnd, h1, h2, h⟩
      · simp at h
  · rintro ⟨hg, bStart, bEnd, h1, h2, h3⟩
    have f1 := falsyStr_of_parseDMY h1
    have f2 := falsyStr_of_parseDMY h2
    simp [hg, f1, f2, h1, h2, h3]


theorem getAvailableGarage_eq (store : Store) {s e : Option String} {startDate endDate : JsDate}
    (hs : parseDMY s = some startDate) (he : parseDMY e = some endDate) :
    getAvailableGarage store s e =
      some (availableGaraj.filter (fun g => !(occupiedGaraj store startDate endDate).contains g)) := by
  simp [getAvailableGarage, hs, he]

theorem getAvailableGarage_isSome (store : Store) {s e : Option String} {l : List Int}
    (h : getAvailableGarage store s e = some l) :
    ∃ startDate endDate, parseDMY s = some startDate ∧ parseDMY e = some endDate := by
  unfold getAvailableGarage at h
  split at h
  · rename_i startDate endDate h1 h2
    exact ⟨startDate, endDate, h1, h2⟩
  · simp at h

theorem mem_occupiedGaraj (store : Store) (startDate endDate : JsDate) (g : Int) :
    g ∈ occupiedGaraj store startDate endDate ↔
      ∃ b ∈ store, b.status = .Approved ∧ b.garaj = some g ∧ occupies startDate endDate b = true := by
  simp only [occupiedGaraj, List.mem_filterMap, List.mem_filter, beq_iff_eq]
  constructor
  · rintro ⟨b, ⟨⟨hb, hst⟩, hocc⟩, hg⟩
    exact ⟨b, hb, hst, hg, hocc⟩
  · rintro ⟨b, hb, hst, hg, hocc⟩
    exact ⟨b, ⟨⟨hb, hst⟩, hocc⟩, hg⟩

theorem contains_eq_true_iff (l : List Int) (g : Int) : l.contains g = true ↔ g ∈ l := by
  simp

theorem contains_eq_false_iff (l : List Int) (g : Int) : l.contains g = false ↔ g ∉ l := by
  simp

theorem mem_available_iff (store : Store) (startDate endDate : JsDate) (g : Int) :
    g ∈ availableGaraj.filter (fun g => !(occupiedGaraj store startDate endDate).contains g) ↔
      1 ≤ g ∧ g ≤ (totalGaraj : Int) ∧
        ∀ b ∈ store, b.status = .Approved → b.garaj = some g →
          ∀ bStart bEnd, parseDMY b.startMonth = some bStart → parseDMY b.endMonth = some bEnd →
            periodsIntersect startDate endDate bStart bEnd = false := by
  simp only [List.mem_filter, mem_pool, Bool.not_eq_true', contains_eq_false_iff,
    mem_occupiedGaraj, occupies_iff]
  constructor
  · rintro ⟨⟨h1, h2⟩, hno⟩
    refine ⟨h1, h2, ?_⟩
    intro b hb hst hg bStart bEnd p1 p2
    by_contra hint
    apply hno
    refine ⟨b, hb, hst, hg, ?_, bStart, bEnd, p1, p2, by simpa using hint⟩
    simp only [hg, falsyNum, beq_eq_false_iff_ne, ne_eq]
    omega
  · rintro ⟨h1, h2, hall⟩
    refine ⟨⟨h1, h2⟩, ?_⟩
    rintro ⟨b, hb, hst, hg, _, bStart, bEnd, p1, p2, hint⟩
    have := hall b hb hst hg bStart bEnd p1 p2
    simp [hint] at this

theorem available_pairwise (store : Store) (startDate endDate : JsDate) :
    (availableGaraj.filter (fun g => !(occupiedGaraj store startDate endDate).contains g)).Pairwise (· < ·) :=
  List.Pairwise.filter _ pool_pairwise

theorem occupiedGaraj_filter_approved (store : Store) (startDate endDate : JsDate) :
    occupiedGaraj (store.filter (fun b => b.status == Status.Approved)) startDate endDate =
      occupiedGaraj store startDate endDate := by
  simp [occupiedGaraj, List.filter_filter]

/-- C2. `getAvailableGarage` returns, for a candidate period whose two dates
parse, exactly the garages `1..totalGaraj` that no approved booking with a
parsable period holds in an intersecting period (closed intervals on the last
days of the end-point months), in strictly ascending order; it reads approved
bookings only; and a candidate that ends in the month in which an approved
booking of garage `g` starts does not get `g`. -/
theorem getAvailableGarage_spec (store : Store) (s e : Option String) (startDate endDate : JsDate)
    (hs : parseDMY s = some startDate) (he : parseDMY e = some endDate) :
    ∃ available, getAvailableGarage store s e = some available ∧
      available.Pairwise (· < ·) ∧
      (∀ g, g ∈ available ↔
        1 ≤ g ∧ g ≤ (totalGaraj : Int) ∧
          ∀ b ∈ store, b.status = .Approved → b.garaj = some g →
            ∀ bStart bEnd, parseDMY b.startMonth = some bStart →
              parseDMY b.endMonth = some bEnd →
                periodsIntersect startDate endDate bStart bEnd = false) ∧
      getAvailableGarage (store.filter (fun b => b.status == Status.Approved)) s e =
        some available ∧
      (∀ b ∈ store, ∀ g bStart bEnd, b.status = .Approved → b.garaj = some g →
        parseDMY b.startMonth = some bStart → parseDMY b.endMonth = some bEnd →
        endDate.getFullYear = bStart.getFullYear → endDate.getMonth = bStart.getMonth →
        (lastDayOfMonth startDate).le (lastDayOfMonth endDate) = true →
        (lastDayOfMonth bStart).le (lastDayOfMonth bEnd) = true →
        g ∉ available) := by
  refine ⟨_, getAvailableGarage_eq store hs he, available_pairwise store startDate endDate,
    mem_available_iff store startDate endDate, ?_, ?_⟩
  · rw [getAvailableGarage_eq _ hs he, occupiedGaraj_filter_approved]
  · intro b hb g bStart bEnd hst hg p1 p2 hy hm hw1 hw2 hmem
    have hno := ((mem_available_iff store startDate endDate g).1 hmem).2.2 b hb hst hg bStart bEnd p1 p2
    have heq : lastDayOfMonth endDate = lastDayOfMonth bStart := lastDayOfMonth_congr hy hm
    have h1 : (lastDayOfMonth startDate).le (lastDayOfMonth bEnd) = true :=
      JsDate.le_trans hw1 (heq ▸ hw2)
    have h2 : (lastDayOfMonth bStart).le (lastDayOfMonth endDate) = true := by
      rw [heq]
      exact JsDate.le_refl_left hw2
    simp [periodsIntersect, h1, h2] at hno

/-! ## `POST /bookings` -/

theorem available_of_getAvailableGarage {store : Store} {s e : Option String} {available : List Int}
    (h : getAvailableGarage store s e = some available) :
    ∃ startDate endDate, parseDMY s = some startDate ∧ parseDMY e = some endDate ∧
      available =
        availableGaraj.filter (fun g => !(occupiedGaraj store startDate endDate).contains g) := by
  obtain ⟨startDate, endDate, h1, h2⟩ := getAvailableGarage_isSome store h
  refine ⟨startDate, endDate, h1, h2, ?_⟩
  rw [getAvailableGarage_eq store h1 h2] at h
  exact (Option.some.inj h).symm

theorem getAvailableGarage_pairwise {store : Store} {s e : Option String} {available : List Int}
    (h : getAvailableGarage store s e = some available) : available.Pairwise (· < ·) := by
  obtain ⟨startDate, endDate, _, _, rfl⟩ := available_of_getAvailableGarage h
  exact available_pairwise store startDate endDate

theorem getAvailableGarage_mem_pool {store : Store} {s e : Option String} {available : List Int}
    (h : getAvailableGarage store s e = some available) {g : Int} (hg : g ∈ available) :
    1 ≤ g ∧ g ≤ (totalGaraj : Int) := by
  obtain ⟨startDate, endDate, _, _, rfl⟩ := available_of_getAvailableGarage h
  have := (mem_available_iff store startDate endDate g).1 hg
  exact ⟨this.1, this.2.1⟩

/-- The handler on a request that has its fields, whose start month parses
and for which `getAvailableGarage` returns `available`. -/
theorem createBooking_eq (store : Store) (key : Nat) (req : CreateRequest) (startMonth : String)
    (startDate : JsDate) (available : List Int)
    (hfields : missingField req = false) (hsm : req.startMonth = .str startMonth)
    (hstart : parseDMY (some (startDateText startMonth)) = some startDate)
    (havail : getAvailableGarage store (some (formatDateDMY startDate))
      (some (formatDateDMY (endDateOf startDate (parseInt req.duration)))) = some available) :
    createBooking store key req =
      allocate store (bookingData key req startDate) available req.garaj := by
  unfold createBooking
  simp only [hfields, hsm, hstart, bookingData, havail]
  simp

/-- C3. A create request with its required fields, a start month that parses
and no preferred garage, for whose period `getAvailableGarage` returns
`available`: if `available` is not empty the booking is stored as Approved
with the first, which is the least, garage of `available`; if it is empty the
booking is stored as Pending with no garage; the answer is 201 in both cases. -/
theorem createBooking_no_preference (store : Store) (key : Nat) (req : CreateRequest)
    (startMonth : String) (startDate : JsDate) (available : List Int)
    (hfields : missingField req = false) (hsm : req.startMonth = .str startMonth)
    (hstart : parseDMY (some (startDateText startMonth)) = some startDate)
    (havail : getAvailableGarage store (some (formatDateDMY startDate))
      (some (formatDateDMY (endDateOf startDate (parseInt req.duration)))) = some available)
    (hpref : req.garaj.truthy = false) :
    (∀ first rest, available = first :: rest →
      createBooking store key req =
        (.created, store ++ [{ bookingData key req startDate with
          garaj := some first, status := .Approved }]) ∧
      ∀ g ∈ available, first ≤ g) ∧
    (available = [] →
      createBooking store key req = (.created, store ++ [bookingData key req startDate]) ∧
      (bookingData key req startDate).status = .Pending ∧
      (bookingData key req startDate).garaj = none) := by
  have heq := createBooking_eq store key req startMonth startDate available hfields hsm hstart havail
  have hpw := getAvailableGarage_pairwise havail
  constructor
  · rintro first rest rfl
    refine ⟨by simpa [allocate, hpref] using heq, ?_⟩
    intro g hg
    rcases List.mem_cons.1 hg with rfl | hg
    · exact le_refl _
    · exact le_of_lt (List.rel_of_pairwise_cons hpw hg)
  · rintro rfl
    exact ⟨by simpa [allocate] using heq, rfl, rfl⟩

/-- The first request of scenario A, on the empty store: Approved with garage 1. -/
theorem createBooking_no_preference_witness :
    createBooking [] 1 scenarioRequest =
      (.created, [{ bookingData 1 scenarioRequest (.ymd 2025 0 1) with
        garaj := some 1, status := .Approved }]) ∧
    ∀ g ∈ [1, 2, 3, 4, 5, 6, 7, 8], (1 : Int) ≤ g :=
  (createBooking_no_preference [] 1 scenarioRequest "2025-01" (.ymd 2025 0 1)
    [1, 2, 3, 4, 5, 6, 7, 8] (by decide) (by decide) (by decide) (by decide) (by decide)).1
    1 [2, 3, 4, 5, 6, 7, 8] rfl

/-- C4, as the code has it.  A create request with its required fields and a
start month that parses, whose preferred garage parses to a number `p` other
than 0, and for whose period `getAvailableGarage` returns `available`: if
`available` is not empty and `p` is not in it, the answer is 400 with
`available` and nothing is written; if `p` is in it, the booking is stored as
Approved with garage `p`; if `available` is empty, the booking is stored as
Pending with no garage and the answer is 201. -/
theorem createBooking_preferred (store : Store) (key : Nat) (req : CreateRequest)
    (startMonth : String) (startDate : JsDate) (available : List Int) (p : Int)
    (hfields : missingField req = false) (hsm : req.startMonth = .str startMonth)
    (hstart : parseDMY (some (startDateText startMonth)) = some startDate)
    (havail : getAvailableGarage store (some (formatDateDMY startDate))
      (some (formatDateDMY (endDateOf startDate (parseInt req.duration)))) = some available)
    (hpref : req.garaj.truthy = true) (hp : parseInt req.garaj = some p) (hp0 : p ≠ 0) :
    (available ≠ [] → p ∉ available →
      createBooking store key req = (.slotUnavailable available, store)) ∧
    (p ∈ available →
      createBooking store key req =
        (.created, store ++ [{ bookingData key req startDate with
          garaj := some p, status := .Approved }])) ∧
    (available = [] →
      createBooking store key req = (.created, store ++ [bookingData key req startDate]) ∧
      (bookingData key req startDate).status = .Pending ∧
      (bookingData key req startDate).garaj = none) := by
  have heq := createBooking_eq store key req startMonth startDate available hfields hsm hstart havail
  refine ⟨?_, ?_, ?_⟩
  · intro hne hmem
    cases available with
    | nil => exact absurd rfl hne
    | cons first rest => simpa [allocate, hpref, hp, hp0, hmem] using heq
  · intro hmem
    cases available with
    | nil => simp at hmem
    | cons first rest => simpa [allocate, hpref, hp, hp0, hmem] using heq
  · rintro rfl
    exact ⟨by simpa [allocate] using heq, rfl, rfl⟩

/-- On the empty store a request that prefers garage 3 is stored as Approved with garage 3. -/
theorem createBooking_preferred_witness :
    createBooking [] 1 { scenarioRequest with garaj := .str "3" } =
      (.created, [{ bookingData 1 { scenarioRequest with garaj := .str "3" } (.ymd 2025 0 1) with
        garaj := some 3, status := .Approved }]) :=
  (createBooking_preferred [] 1 { scenarioRequest with garaj := .str "3" } "2025-01"
    (.ymd 2025 0 1) [1, 2, 3, 4, 5, 6, 7, 8] 3 (by decide) (by decide) (by decide) (by decide)
    (by decide) (by decide) (by decide)).2.1 (by decide)

/-- C4, counterexample.  All eight garages are held in February 2025; a
request for February to April 2025 that prefers garage 3 gets the answer 201
and is written as a Pending booking with no garage, although garage 3 is not
in the (empty) list of available garages. -/
theorem createBooking_preferred_when_none_available :
    getAvailableGarage fullStore (some "01/02/2025") (some "30/04/2025") = some [] ∧
    createBooking fullStore 9
        { scenarioRequest with startMonth := .str "2025-02", garaj := .num 3 } =
      (.created, fullStore ++
        [{ id := 9, username := "ali", studentName := "Ali", studentID := "S1",
           startMonth := some "01/02/2025", endMonth := some "30/04/2025", duration := some 3,
           garaj := none, status := .Pending }]) := by
  decide

/-- A request value that `parseInt` reads as a number other than 0 is truthy. -/
theorem truthy_of_parseInt_ne_zero {v : JsVal} {p : Int} (hp : parseInt v = some p)
    (hp0 : p ≠ 0) : v.truthy = true := by
  cases v with
  | undefined => simp [parseInt] at hp
  | str s =>
    cases hs : s.data with
    | nil => simp [parseInt, hs, parseIntChars, stripSign, stripRadix, takeDigits] at hp
    | cons c cs => simp [JsVal.truthy, hs]
  | num n =>
    simp only [parseInt, Option.some.injEq] at hp
    subst hp
    simpa [JsVal.truthy] using hp0

/-- Once the list of available garages is known, a preferred garage that
`parseInt` reads as 0 (the number 0, which is falsy, or a text such as `0`) is
handled as the absence of a preference. -/
theorem allocate_of_parse_zero (store : Store) (data : Booking) (available : List Int)
    (v : JsVal) (hp : parseInt v = some 0) :
    allocate store data available v = allocate store data available .undefined := by
  cases available with
  | nil => rfl
  | cons first rest =>
    have hu : JsVal.undefined.truthy = false := rfl
    cases ht : v.truthy <;> simp [allocate, ht, hp, hu]

/-- C5, as the code has it.  A create request with its required fields and a
start month that parses, whose preferred garage parses to a number `p` outside
`1..totalGaraj`, and for whose period `getAvailableGarage` returns `available`.
If `p` is not 0 and `available` is not empty, the answer is 400 with
`available` and nothing is written.  If `p` is 0, the request is handled as
the same request without a preferred garage: with `available` not empty it is
stored as Approved with the first, which is the least, garage of `available`.
If `available` is empty, the booking is stored as Pending with no garage,
whatever `p` is. -/
theorem createBooking_preferred_outside_pool (store : Store) (key : Nat) (req : CreateRequest)
    (startMonth : String) (startDate : JsDate) (available : List Int) (p : Int)
    (hfields : missingField req = false) (hsm : req.startMonth = .str startMonth)
    (hstart : parseDMY (some (startDateText startMonth)) = some startDate)
    (havail : getAvailableGarage store (some (formatDateDMY startDate))
      (some (formatDateDMY (endDateOf startDate (parseInt req.duration)))) = some available)
    (hp : parseInt req.garaj = some p) (hout : p < 1 ∨ (totalGaraj : Int) < p) :
    (p ≠ 0 → available ≠ [] →
      createBooking store key req = (.slotUnavailable available, store)) ∧
    (p = 0 →
      createBooking store key req = createBooking store key { req with garaj := .undefined } ∧
      ∀ first rest, available = first :: rest →
        createBooking store key req =
          (.created, store ++ [{ bookingData key req startDate with
            garaj := some first, status := .Approved }]) ∧
        ∀ g ∈ available, first ≤ g) ∧
    (available = [] →
      createBooking store key req = (.created, store ++ [bookingData key req startDate]) ∧
      (bookingData key req startDate).status = .Pending ∧
      (bookingData key req startDate).garaj = none) := by
  have heq := createBooking_eq store key req startMonth startDate available hfields hsm hstart havail
  have hpw := getAvailableGarage_pairwise havail
  refine ⟨?_, ?_, ?_⟩
  · intro hp0 hne
    have hpref := truthy_of_parseInt_ne_zero hp hp0
    have hmem : p ∉ available := by
      intro h
      have := getAvailableGarage_mem_pool havail h
      omega
    cases available with
    | nil => exact absurd rfl hne
    | cons first rest => simpa [allocate, hpref, hp, hp0, hmem] using heq
  · rintro rfl
    have hund := createBooking_eq store key { req with garaj := .undefined } startMonth startDate
      available hfields hsm hstart havail
    have hzero := allocate_of_parse_zero store (bookingData key req startDate) available
      req.garaj hp
    refine ⟨?_, ?_⟩
    · rw [heq, hund, hzero]
      rfl
    · rintro first rest rfl
      refine ⟨?_, ?_⟩
      · rw [heq, hzero]
        simp [allocate, JsVal.truthy]
      · intro g hg
        rcases List.mem_cons.1 hg with rfl | hg
        · exact le_refl _
        · exact le_of_lt (List.rel_of_pairwise_cons hpw hg)
  · rintro rfl
    exact ⟨by simpa [allocate] using heq, rfl, rfl⟩

/-- On the empty store a request that prefers garage 9 is refused with the
list of all eight garages, and a request whose preferred garage is the text
`0` is answered as the request without a preferred garage. -/
theorem createBooking_preferred_outside_pool_witness :
    createBooking [] 1 { scenarioRequest with garaj := .num 9 } =
      (.slotUnavailable [1, 2, 3, 4, 5, 6, 7, 8], []) ∧
    createBooking [] 1 { scenarioRequest with garaj := .str "0" } =
      createBooking [] 1 scenarioRequest :=
  ⟨(createBooking_preferred_outside_pool [] 1 { scenarioRequest with garaj := .num 9 } "2025-01"
      (.ymd 2025 0 1) [1, 2, 3, 4, 5, 6, 7, 8] 9 (by decide) (by decide) (by decide) (by decide)
      (by decide) (by decide)).1 (by decide) (by decide),
    ((createBooking_preferred_outside_pool [] 1 { scenarioRequest with garaj := .str "0" }
      "2025-01" (.ymd 2025 0 1) [1, 2, 3, 4, 5, 6, 7, 8] 0 (by decide) (by decide) (by decide)
      (by decide) (by decide) (by decide)).2.1 rfl).1⟩

/-- C5, counterexample.  On the empty store a request whose preferred garage
is the text `0` is written as Approved with garage 1; and when all garages are
held, a request that prefers garage 9 is written as a Pending booking. -/
theorem createBooking_outside_pool_written :
    parseInt (.str "0") = some 0 ∧
    createBooking [] 1 { scenarioRequest with garaj := .str "0" } =
      (.created,
        [{ id := 1, username := "ali", studentName := "Ali", studentID := "S1",
           startMonth := some "01/01/2025", endMonth := some "31/03/2025", duration := some 3,
           garaj := some 1, status := .Approved }]) ∧
    createBooking fullStore 9 { scenarioRequest with garaj := .num 9 } =
      (.created, fullStore ++
        [{ id := 9, username := "ali", studentName := "Ali", studentID := "S1",
           startMonth := some "01/01/2025", endMonth := some "31/03/2025", duration := some 3,
           garaj := none, status := .Pending }]) := by
  decide

/-- C6, failing input.  A request for April 2025 with duration `-1` is
answered 201 and written, as an Approved booking of garage 1 that starts in
April 2025 and ends in February 2025. -/
theorem createBooking_negative_duration :
    parseInt (.num (-1)) = some (-1) ∧
    createBooking [] 1 { scenarioRequest with startMonth := .str "2025-04", duration := .num (-1) } =
      (.created,
        [{ id := 1, username := "ali", studentName := "Ali", studentID := "S1",
           startMonth := some "01/04/2025", endMonth := some "28/02/2025", duration := some (-1),
           garaj := some 1, status := .Approved }]) ∧
    (parseDMY (some "01/04/2025")).bind monthIndex = some (12 * 2025 + 3) ∧
    (parseDMY (some "28/02/2025")).bind monthIndex = some (12 * 2025 + 1) := by
  decide

theorem reachable_run (ops : List Op) :
    ∀ store, Reachable store → keysNew store ops = true → Reachable (run store ops) := by
  induction ops with
  | nil => intro store h _; exact h
  | cons op ops ih =>
    intro store h hk
    simp only [keysNew, Bool.and_eq_true] at hk
    exact ih (applyOp store op) (Reachable.step store op h hk.1) hk.2

/-- C1, failing input.  After `doubleBookingOps` the store holds two Approved
bookings of garage 1: January to April 2025, and April 2025 to February 2025;
by the intersection test of the claim (`s1 ≤ e2` and `s2 ≤ e1` on months)
their periods intersect. -/
theorem double_booking_reachable :
    Reachable (run [] doubleBookingOps) ∧
    run [] doubleBookingOps =
      [{ id := 1, username := "ali", studentName := "Ali", studentID := "S1",
         startMonth := some "01/01/2025", endMonth := some "30/04/2025", duration := some 4,
         garaj := some 1, status := .Approved },
       { id := 2, username := "ali", studentName := "Ali", studentID := "S1",
         startMonth := some "01/04/2025", endMonth := some "28/02/2025", duration := some (-1),
         garaj := some 1, status := .Approved }] ∧
    noDoubleBooking (run [] doubleBookingOps) = false :=
  ⟨reachable_run doubleBookingOps [] Reachable.empty (by decide), by decide, by decide⟩

/-- C7, failing input.  In scenario C an extension of R2 by 2 months is
refused with a conflict, but an extension by 4 000 000 months is accepted:
the new end date is outside the range of `Date`, its text is `NaN/NaN/NaN`,
`parseDMY` throws on it inside the overlap test of every other booking, and
the test answers false. -/
theorem extendBooking_conflict_missed :
    extendBooking scenarioCStore 2 (.num 2) = (.extensionConflict, scenarioCStore) ∧
    newDate (some 2025) (some (4 + 4000000)) (some 0) = .invalid ∧
    extendBooking scenarioCStore 2 (.num 4000000) =
      (.ok,
        [{ id := 2, username := "ali", studentName := "Ali", studentID := "S1",
           startMonth := some "01/02/2025", endMonth := some "NaN/NaN/NaN",
           duration := some 4000003, garaj := some 2, status := .Approved },
         { id := 4, username := "abu", studentName := "Abu", studentID := "S2",
           startMonth := some "01/05/2025", endMonth := some "31/05/2025", duration := some 1,
           garaj := some 2, status := .Approved }]) := by
  decide

/-- C8, failing input.  The extension by 4 000 000 months of a booking that
ends in March 2025 is answered 200 and writes the text `NaN/NaN/NaN` as
`endMonth`, which `parseDMY` does not read as a date; an extension by 2 months
writes the last day of May 2025. -/
theorem extendBooking_end_not_a_date :
    extendBooking (createBooking [] 1 scenarioRequest).2 1 (.num 2) =
      (.ok,
        [{ id := 1, username := "ali", studentName := "Ali", studentID := "S1",
           startMonth := some "01/01/2025", endMonth := some "31/05/2025",
           duration := some 5, garaj := some 1, status := .Approved }]) ∧
    extendBooking (createBooking [] 1 scenarioRequest).2 1 (.num 4000000) =
      (.ok,
        [{ id := 1, username := "ali", studentName := "Ali", studentID := "S1",
           startMonth := some "01/01/2025", endMonth := some "NaN/NaN/NaN",
           duration := some 4000003, garaj := some 1, status := .Approved }]) ∧
    parseDMY (some "NaN/NaN/NaN") = none := by
  decide

/-! ## The loop of `checkQueue` -/

theorem eq_of_id_eq {store : Store} (hnd : (store.map (fun b => b.id)).Nodup) {a b : Booking}
    (ha : a ∈ store) (hb : b ∈ store) (h : a.id = b.id) : a = b :=
  List.inj_on_of_nodup_map hnd ha hb h

theorem promote_eq_map {store : Store} {b : Booking} (hb : b ∈ store) (g : Int) :
    promote store b.id g =
      store.map (fun r => if r.id == b.id then { r with garaj := some g, status := .Approved }
        else r) := by
  have hany : store.any (fun r => r.id == b.id) = true :=
    List.any_eq_true.2 ⟨b, hb, by simp⟩
  simp [promote, update, hany]

theorem map_id_promote {store : Store} {b : Booking} (hb : b ∈ store) (g : Int) :
    (promote store b.id g).map (fun r => r.id) = store.map (fun r => r.id) := by
  rw [promote_eq_map hb, List.map_map]
  apply List.map_congr_left
  intro r _
  by_cases h : r.id = b.id <;> simp [h]

theorem mem_promote {store : Store} (hnd : (store.map (fun b => b.id)).Nodup) {b : Booking}
    (hb : b ∈ store) (g : Int) (r : Booking) :
    r ∈ promote store b.id g ↔
      (r ∈ store ∧ r.id ≠ b.id) ∨ r = { b with garaj := some g, status := .Approved } := by
  rw [promote_eq_map hb, List.mem_map]
  constructor
  · rintro ⟨x, hx, rfl⟩
    by_cases h : x.id = b.id
    · right
      have := eq_of_id_eq hnd hx hb h
      subst this
      simp
    · left
      simp [h, hx]
  · rintro (⟨hr, hne⟩ | rfl)
    · exact ⟨r, hr, by simp [hne]⟩
    · exact ⟨b, hb, by simp⟩

theorem LoopInv.tail {b : Booking} {l : List Booking} {store : Store}
    (h : LoopInv (b :: l) store) : LoopInv l store where
  nodup := h.nodup
  nodupList := by
    have := h.nodupList
    simp only [List.map_cons, List.nodup_cons] at this
    exact this.2
  mem := fun x hx => h.mem x (List.mem_cons_of_mem _ hx)
  pending := fun x hx => h.pending x (List.mem_cons_of_mem _ hx)

theorem LoopInv.head_id_ne {b : Booking} {l : List Booking} {store : Store}
    (h : LoopInv (b :: l) store) {x : Booking} (hx : x ∈ l) : x.id ≠ b.id := by
  have := h.nodupList
  simp only [List.map_cons, List.nodup_cons, List.mem_map, not_exists, not_and] at this
  intro e
  exact this.1 x hx e

theorem LoopInv.promote {b : Booking} {l : List Booking} {store : Store}
    (h : LoopInv (b :: l) store) (g : Int) : LoopInv l (promote store b.id g) where
  nodup := by
    rw [map_id_promote (h.mem b (List.mem_cons_self _ _))]
    exact h.nodup
  nodupList := h.tail.nodupList
  mem := fun x hx =>
    (mem_promote h.nodup (h.mem b (List.mem_cons_self _ _)) g x).2
      (Or.inl ⟨h.tail.mem x hx, h.head_id_ne hx⟩)
  pending := h.tail.pending

theorem scanStep_cases {store next : Store} {b : Booking} (h : scanStep store b = some next) :
    next = store ∨ ∃ first, next = promote store b.id first := by
  unfold scanStep at h
  split at h
  · exact Or.inl (Option.some.inj h).symm
  · split at h
    · cases h
    · exact Or.inl (Option.some.inj h).symm
    · exact Or.inr ⟨_, (Option.some.inj h).symm⟩

theorem LoopInv.step {b : Booking} {l : List Booking} {store next : Store}
    (h : LoopInv (b :: l) store) (hs : scanStep store b = some next) : LoopInv l next := by
  rcases scanStep_cases hs with rfl | ⟨first, rfl⟩
  · exact h.tail
  · exact h.promote first

theorem mem_step_of_id_ne {b : Booking} {l : List Booking} {store next : Store}
    (h : LoopInv (b :: l) store) (hs : scanStep store b = some next) {r : Booking}
    (hr : r ∈ store) (hne : r.id ≠ b.id) : r ∈ next := by
  rcases scanStep_cases hs with rfl | ⟨first, rfl⟩
  · exact hr
  · exact (mem_promote h.nodup (h.mem b (List.mem_cons_self _ _)) _ r).2 (Or.inl ⟨hr, hne⟩)

theorem LoopInv.drop (pre : List Booking) {rest : List Booking} {store : Store}
    (h : LoopInv (pre ++ rest) store) : LoopInv rest store where
  nodup := h.nodup
  nodupList := by
    have := h.nodupList
    rw [List.map_append] at this
    exact (List.nodup_append.1 this).2.1
  mem := fun x hx => h.mem x (List.mem_append_right _ hx)
  pending := fun x hx => h.pending x (List.mem_append_right _ hx)

/-- The loop keeps the invariant for what remains to be scanned. -/
theorem LoopInv.loop (pre : List Booking) :
    ∀ {rest : List Booking} {store : Store}, LoopInv (pre ++ rest) store →
      LoopInv rest (checkQueueLoop pre store) := by
  induction pre with
  | nil => intro rest store h; exact h
  | cons b pre ih =>
    intro rest store h
    rw [List.cons_append] at h
    cases hs : scanStep store b with
    | none =>
      simp only [checkQueueLoop, hs]
      exact h.tail.drop pre
    | some next =>
      simp only [checkQueueLoop, hs]
      exact ih (h.step hs)

/-- Keys stay distinct through the loop. -/
theorem nodup_checkQueueLoop {l : List Booking} {store : Store} (h : LoopInv l store) :
    ((checkQueueLoop l store).map (fun b => b.id)).Nodup := by
  have h' : LoopInv (l ++ []) store := by
    rw [List.append_nil]
    exact h
  exact (LoopInv.loop l h').nodup

/-- A record whose key is not in the list scanned is left as it is. -/
theorem mem_checkQueueLoop_of_not_scanned (l : List Booking) :
    ∀ {store : Store}, LoopInv l store → ∀ {r : Booking}, r ∈ store →
      (∀ b ∈ l, b.id ≠ r.id) → r ∈ checkQueueLoop l store := by
  induction l with
  | nil => intro store _ r hr _; exact hr
  | cons b l ih =>
    intro store h r hr hne
    have hne' : ∀ x ∈ l, x.id ≠ r.id := fun x hx => hne x (List.mem_cons_of_mem _ hx)
    cases hs : scanStep store b with
    | none =>
      simp only [checkQueueLoop, hs]
      exact hr
    | some next =>
      simp only [checkQueueLoop, hs]
      exact ih (h.step hs)
        (mem_step_of_id_ne h hs hr (fun e => hne b (List.mem_cons_self _ _) e.symm)) hne'

/-- An approved record is left as it is. -/
theorem mem_checkQueueLoop_of_approved {l : List Booking} {store : Store} (h : LoopInv l store)
    {r : Booking} (hr : r ∈ store) (hst : r.status = .Approved) : r ∈ checkQueueLoop l store := by
  apply mem_checkQueueLoop_of_not_scanned l h hr
  intro b hb e
  have := eq_of_id_eq h.nodup (h.mem b hb) hr e
  subst this
  have := h.pending b hb
  rw [hst] at this
  cases this

theorem checkQueueLoop_append_of_completes (pre : List Booking) :
    ∀ (rest : List Booking) (store : Store), loopCompletes pre store = true →
      checkQueueLoop (pre ++ rest) store = checkQueueLoop rest (checkQueueLoop pre store) := by
  induction pre with
  | nil => intro rest store _; rfl
  | cons b pre ih =>
    intro rest store h
    rw [List.cons_append]
    cases hs : scanStep store b with
    | none => simp [loopCompletes, hs] at h
    | some next =>
      simp only [loopCompletes, hs] at h
      simp only [checkQueueLoop, hs]
      exact ih rest next h

theorem checkQueueLoop_append_of_throws (pre : List Booking) :
    ∀ (rest : List Booking) (store : Store), loopCompletes pre store = false →
      checkQueueLoop (pre ++ rest) store = checkQueueLoop pre store := by
  induction pre with
  | nil => intro rest store h; simp [loopCompletes] at h
  | cons b pre ih =>
    intro rest store h
    rw [List.cons_append]
    cases hs : scanStep store b with
    | none => simp only [checkQueueLoop, hs]
    | some next =>
      simp only [loopCompletes, hs] at h
      simp only [checkQueueLoop, hs]
      exact ih rest next h

theorem mem_pendingBookings {store : Store} {b : Booking} :
    b ∈ pendingBookings store ↔ b ∈ store ∧ b.status = .Pending := by
  unfold pendingBookings
  rw [(List.perm_insertionSort _ _).mem_iff]
  simp [List.mem_filter]

theorem loopInv_pendingBookings {store : Store} (hnd : (store.map (fun b => b.id)).Nodup) :
    LoopInv (pendingBookings store) store where
  nodup := hnd
  nodupList := by
    unfold pendingBookings
    have hperm := (List.perm_insertionSort (fun a b : Booking => a.id ≤ b.id)
      (store.filter (fun b => b.status == Status.Pending))).map (fun b => b.id)
    rw [hperm.nodup_iff]
    exact hnd.sublist ((List.filter_sublist _).map _)
  mem := fun b hb => (mem_pendingBookings.1 hb).1
  pending := fun b hb => (mem_pendingBookings.1 hb).2

theorem pendingBookings_sorted (store : Store) :
    (pendingBookings store).Sorted (fun a b => a.id ≤ b.id) := by
  unfold pendingBookings
  have : IsTotal Booking (fun a b => a.id ≤ b.id) := ⟨fun a b => Nat.le_total a.id b.id⟩
  have : IsTrans Booking (fun a b => a.id ≤ b.id) := ⟨fun a b c h1 h2 => Nat.le_trans h1 h2⟩
  exact List.sorted_insertionSort _ _

theorem pendingBookings_split {store : Store} {p q : Booking} (hp : p ∈ pendingBookings store)
    (hq : q ∈ pendingBookings store) (hlt : p.id < q.id) :
    ∃ pre post, pendingBookings store = pre ++ p :: post ∧ q ∈ post := by
  obtain ⟨pre, post, h⟩ := List.append_of_mem hp
  refine ⟨pre, post, h, ?_⟩
  have hs := pendingBookings_sorted store
  rw [h] at hq hs
  rcases List.mem_append.1 hq with hq | hq
  · have := (List.pairwise_append.1 hs).2.2 q hq p (List.mem_cons_self _ _)
    omega
  · rcases List.mem_cons.1 hq with rfl | hq
    · omega
    · exact hq

theorem periodsIntersect_of_within {pStart pEnd qStart qEnd bStart bEnd : JsDate}
    (hw : periodWithin pStart pEnd qStart qEnd = true)
    (h : periodsIntersect pStart pEnd bStart bEnd = true) :
    periodsIntersect qStart qEnd bStart bEnd = true := by
  simp only [periodWithin, periodsIntersect, Bool.and_eq_true, Bool.or_eq_true, beq_iff_eq] at *
  obtain ⟨h1, h2⟩ := h
  constructor
  · rcases hw.1 with hle | heq
    · exact JsDate.le_trans hle h1
    · rw [heq]; exact h1
  · rcases hw.2 with hle | heq
    · exact JsDate.le_trans h2 hle
    · rw [← heq]; exact h2

theorem occupiedGaraj_of_within {store : Store} {pStart pEnd qStart qEnd : JsDate}
    (hw : periodWithin pStart pEnd qStart qEnd = true) {g : Int}
    (h : g ∈ occupiedGaraj store pStart pEnd) : g ∈ occupiedGaraj store qStart qEnd := by
  rw [mem_occupiedGaraj] at *
  obtain ⟨b, hb, hst, hg, hocc⟩ := h
  refine ⟨b, hb, hst, hg, ?_⟩
  rw [occupies_iff] at *
  obtain ⟨hf, bStart, bEnd, h1, h2, h3⟩ := hocc
  exact ⟨hf, bStart, bEnd, h1, h2, periodsIntersect_of_within hw h3⟩

theorem occupiedGaraj_step {b : Booking} {l : List Booking} {store next : Store}
    (h : LoopInv (b :: l) store) (hs : scanStep store b = some next) {startDate endDate : JsDate}
    {g : Int} (hg : g ∈ occupiedGaraj store startDate endDate) :
    g ∈ occupiedGaraj next startDate endDate := by
  rw [mem_occupiedGaraj] at *
  obtain ⟨r, hr, hst, hgr, hocc⟩ := hg
  refine ⟨r, mem_step_of_id_ne h hs hr ?_, hst, hgr, hocc⟩
  intro e
  have := eq_of_id_eq h.nodup hr (h.mem b (List.mem_cons_self _ _)) e
  subst this
  have := h.pending r (List.mem_cons_self _ _)
  rw [hst] at this
  cases this

theorem getAvailableGarage_eq_nil_iff (store : Store) {s e : Option String}
    {startDate endDate : JsDate} (hs : parseDMY s = some startDate)
    (he : parseDMY e = some endDate) :
    getAvailableGarage store s e = some [] ↔
      ∀ g ∈ availableGaraj, g ∈ occupiedGaraj store startDate endDate := by
  rw [getAvailableGarage_eq store hs he]
  simp [List.filter_eq_nil_iff]

/-- The loop body for a booking whose period parses. -/
theorem scanStep_of_parse (store : Store) {b : Booking} {startDate endDate : JsDate}
    (hs : parseDMY b.startMonth = some startDate) (he : parseDMY b.endMonth = some endDate) :
    ∃ available, getAvailableGarage store b.startMonth b.endMonth = some available ∧
      scanStep store b =
        match available with
        | [] => some store
        | first :: _ => some (promote store b.id first) := by
  refine ⟨_, getAvailableGarage_eq store hs he, ?_⟩
  unfold scanStep
  rw [falsyStr_of_parseDMY hs, falsyStr_of_parseDMY he, getAvailableGarage_eq store hs he]
  simp only [Bool.or_self, Bool.false_eq_true, if_false]
  generalize availableGaraj.filter _ = av
  cases av <;> rfl

/-- A booking for whose period every garage is occupied is not promoted by the
loop. -/
theorem mem_checkQueueLoop_of_blocked (l : List Booking) :
    ∀ {store : Store}, LoopInv l store → ∀ {q : Booking} {qStart qEnd : JsDate}, q ∈ l →
      parseDMY q.startMonth = some qStart → parseDMY q.endMonth = some qEnd →
      (∀ g ∈ availableGaraj, g ∈ occupiedGaraj store qStart qEnd) →
      q ∈ checkQueueLoop l store := by
  induction l with
  | nil => intro store _ q _ _ hq; simp at hq
  | cons b l ih =>
    intro store h q qStart qEnd hq hqs hqe hocc
    cases hs : scanStep store b with
    | none =>
      simp only [checkQueueLoop, hs]
      exact h.mem q hq
    | some next =>
      simp only [checkQueueLoop, hs]
      rcases List.mem_cons.1 hq with rfl | hq'
      · obtain ⟨available, hav, hstep⟩ := scanStep_of_parse store hqs hqe
        have hnil := (getAvailableGarage_eq_nil_iff store hqs hqe).2 hocc
        rw [hnil] at hav
        cases (Option.some.inj hav)
        rw [hs] at hstep
        cases (Option.some.inj hstep)
        exact mem_checkQueueLoop_of_not_scanned l h.tail (h.mem q (List.mem_cons_self _ _))
          (fun x hx => h.head_id_ne hx)
      · exact ih (h.step hs) hq' hqs hqe (fun g hg => occupiedGaraj_step h hs (hocc g hg))

theorem promoted_mem_promote {store : Store} (hnd : (store.map (fun b => b.id)).Nodup)
    {b : Booking} (hb : b ∈ store) (g : Int) :
    { b with garaj := some g, status := .Approved } ∈ promote store b.id g :=
  (mem_promote hnd hb g _).2 (Or.inr rfl)

/-- What the loop does from the point at which it scans `p`, when the period
of `p` parses: either no garage is available for `p` and the loop goes on from
the same store, or `p` is in the final store as an Approved booking. -/
theorem checkQueueLoop_at_scanned {p : Booking} {post : List Booking} {store : Store}
    (h : LoopInv (p :: post) store) {pStart pEnd : JsDate}
    (hps : parseDMY p.startMonth = some pStart) (hpe : parseDMY p.endMonth = some pEnd) :
    (getAvailableGarage store p.startMonth p.endMonth = some [] ∧
      checkQueueLoop (p :: post) store = checkQueueLoop post store) ∨
    (∃ g, { p with garaj := some g, status := .Approved } ∈ checkQueueLoop (p :: post) store) := by
  obtain ⟨available, hav, hstep⟩ := scanStep_of_parse store hps hpe
  cases available with
  | nil =>
    left
    exact ⟨hav, by simp only [checkQueueLoop, hstep]⟩
  | cons first tl =>
    right
    refine ⟨first, ?_⟩
    simp only [checkQueueLoop, hstep]
    exact mem_checkQueueLoop_of_approved (h.promote first)
      (promoted_mem_promote h.nodup (h.mem p (List.mem_cons_self _ _)) first) rfl

/-- C10. FIFO order of one run of `checkQueue`, for a store with distinct keys
and two Pending bookings `p`, `q` whose periods parse, `p` with the smaller
key.  `p` is scanned before `q`.  If `q` is promoted to garage `g` while `p`
is left Pending, then `p` was scanned and, in the store as it was when `p` was
scanned, `getAvailableGarage` returned the empty list for the period of `p`:
`g` was not available for `p`.  If the period of `p` lies within the period of
`q` and `q` is promoted, then `p` is promoted in the same run. -/
theorem checkQueue_fifo (store : Store) (p q : Booking) (pStart pEnd qStart qEnd : JsDate)
    (hnd : (store.map (fun b => b.id)).Nodup)
    (hp : p ∈ store) (hq : q ∈ store) (hpP : p.status = .Pending) (hqP : q.status = .Pending)
    (hlt : p.id < q.id)
    (hps : parseDMY p.startMonth = some pStart) (hpe : parseDMY p.endMonth = some pEnd)
    (hqs : parseDMY q.startMonth = some qStart) (hqe : parseDMY q.endMonth = some qEnd) :
    ∃ pre post, pendingBookings store = pre ++ p :: post ∧ q ∈ post ∧
      (∀ g, (∃ r ∈ checkQueue store, r.id = q.id ∧ r.status = .Approved ∧ r.garaj = some g) →
        (∃ r ∈ checkQueue store, r.id = p.id ∧ r.status = .Pending) →
        loopCompletes pre store = true ∧
        getAvailableGarage (checkQueueLoop pre store) p.startMonth p.endMonth = some [] ∧
        ∀ available,
          getAvailableGarage (checkQueueLoop pre store) p.startMonth p.endMonth = some available →
            g ∉ available) ∧
      (periodWithin pStart pEnd qStart qEnd = true →
        (∃ r ∈ checkQueue store, r.id = q.id ∧ r.status = .Approved) →
        ∃ r ∈ checkQueue store, r.id = p.id ∧ r.status = .Approved) := by
  obtain ⟨pre, post, hsplit, hqpost⟩ :=
    pendingBookings_split (mem_pendingBookings.2 ⟨hp, hpP⟩) (mem_pendingBookings.2 ⟨hq, hqP⟩) hlt
  refine ⟨pre, post, hsplit, hqpost, ?_⟩
  have hinv : LoopInv (pre ++ p :: post) store := hsplit ▸ loopInv_pendingBookings hnd
  have hfinal : checkQueue store = checkQueueLoop (pre ++ p :: post) store := by
    rw [checkQueue, hsplit]
  have hndFinal : ((checkQueue store).map (fun b => b.id)).Nodup := by
    rw [hfinal]
    exact nodup_checkQueueLoop hinv
  have hscan := LoopInv.loop pre hinv
  -- a promoted `q` cannot be in the final store as it was read
  have hqNot : (∃ r ∈ checkQueue store, r.id = q.id ∧ r.status = .Approved) →
      q ∉ checkQueue store := by
    rintro ⟨r, hr, hid, hst⟩ hmem
    have := eq_of_id_eq hndFinal hr hmem hid
    subst this
    rw [hqP] at hst
    cases hst
  -- if the loop is left before `p`, `q` is not promoted
  have hcompl : (∃ r ∈ checkQueue store, r.id = q.id ∧ r.status = .Approved) →
      loopCompletes pre store = true := by
    intro hprom
    by_contra hc
    have hc' : loopCompletes pre store = false := by simpa using hc
    apply hqNot hprom
    rw [hfinal, checkQueueLoop_append_of_throws pre _ store hc']
    exact hscan.mem q (List.mem_cons_of_mem _ hqpost)
  have hrun : loopCompletes pre store = true →
      checkQueue store = checkQueueLoop (p :: post) (checkQueueLoop pre store) := by
    intro hc
    rw [hfinal, checkQueueLoop_append_of_completes pre _ store hc]
  constructor
  · rintro g ⟨r, hr, hid, hst, _⟩ ⟨r', hr', hid', hst'⟩
    have hc := hcompl ⟨r, hr, hid, hst⟩
    refine ⟨hc, ?_⟩
    rcases checkQueueLoop_at_scanned hscan hps hpe with ⟨hnil, _⟩ | ⟨g', hmem⟩
    · refine ⟨hnil, ?_⟩
      intro available hav
      rw [hnil] at hav
      cases (Option.some.inj hav)
      simp
    · exfalso
      rw [← hrun hc] at hmem
      have := eq_of_id_eq hndFinal hr' hmem hid'
      subst this
      cases hst'
  · intro hw hprom
    have hc := hcompl hprom
    rcases checkQueueLoop_at_scanned hscan hps hpe with ⟨hnil, hgo⟩ | ⟨g', hmem⟩
    · exfalso
      apply hqNot hprom
      rw [hrun hc, hgo]
      have hocc := (getAvailableGarage_eq_nil_iff _ hps hpe).1 hnil
      exact mem_checkQueueLoop_of_blocked post hscan.tail hqpost hqs hqe
        (fun g hg => occupiedGaraj_of_within hw (hocc g hg))
    · rw [← hrun hc] at hmem
      exact ⟨_, hmem, rfl, rfl⟩

/-! ## `checkQueue` as a fold -/

theorem head?_filter_eq_find? {α : Type} (f : α → Bool) (l : List α) :
    (l.filter f).head? = l.find? f := by
  induction l with
  | nil => rfl
  | cons a l ih =>
    by_cases h : f a = true
    · simp [List.filter_cons, List.find?_cons, h]
    · simp [List.filter_cons, List.find?_cons, h, ih]

theorem parseDMY_of_falsyStr {s : Option String} (h : falsyStr s = true) : parseDMY s = none := by
  cases hp : parseDMY s with
  | none => rfl
  | some d =>
    have := falsyStr_of_parseDMY hp
    rw [h] at this
    cases this

theorem falsyNum_of_mem_pool {g : Int} (hg : g ∈ availableGaraj) : falsyNum (some g) = false := by
  have := (mem_pool g).1 hg
  simp only [falsyNum, beq_eq_false_iff_ne, ne_eq]
  omega

/-- On a garage of the pool, the test of `lowestAvailable` on the approved set
agrees with the test of `getAvailableGarage` on the store. -/
theorem all_holdsIn_eq {store : Store} {approvedSet : List Booking}
    (happ : ∀ r, r ∈ approvedSet ↔ r ∈ store ∧ r.status = .Approved)
    (startDate endDate : JsDate) {g : Int} (hg : g ∈ availableGaraj) :
    approvedSet.all (fun b => !holdsIn b g startDate endDate) =
      !(occupiedGaraj store startDate endDate).contains g := by
  rw [Bool.eq_iff_iff]
  simp only [List.all_eq_true, Bool.not_eq_true', contains_eq_false_iff, mem_occupiedGaraj,
    occupies_iff, not_exists, not_and]
  constructor
  · intro h b hb hst hgar _ bStart bEnd h1 h2 h3
    have := h b ((happ b).2 ⟨hb, hst⟩)
    simp [holdsIn, hst, hgar, h1, h2, h3] at this
  · intro h b hb
    obtain ⟨hbs, hst⟩ := (happ b).1 hb
    by_contra hc
    simp only [Bool.not_eq_false, holdsIn, Bool.and_eq_true, beq_iff_eq] at hc
    obtain ⟨⟨_, hgar⟩, hm⟩ := hc
    split at hm
    · rename_i bStart bEnd h1 h2
      exact h b hbs hst hgar (by rw [hgar]; exact falsyNum_of_mem_pool hg) bStart bEnd h1 h2 hm
    · cases hm

theorem lowestAvailable_eq_head? {store : Store} {approvedSet : List Booking}
    (happ : ∀ r, r ∈ approvedSet ↔ r ∈ store ∧ r.status = .Approved)
    (startDate endDate : JsDate) :
    lowestAvailable approvedSet startDate endDate =
      (availableGaraj.filter
        (fun g => !(occupiedGaraj store startDate endDate).contains g)).head? := by
  rw [head?_filter_eq_find?, lowestAvailable, ← head?_filter_eq_find?, ← head?_filter_eq_find?]
  congr 1
  apply List.filter_congr
  intro g hg
  exact all_holdsIn_eq happ startDate endDate hg

theorem promote_eq_map_const {store : Store} (hnd : (store.map (fun b => b.id)).Nodup)
    {b : Booking} (hb : b ∈ store) (g : Int) :
    promote store b.id g =
      store.map (fun r => if r.id == b.id then { b with garaj := some g, status := .Approved }
        else r) := by
  rw [promote_eq_map hb]
  apply List.map_congr_left
  intro r hr
  by_cases h : r.id = b.id
  · have := eq_of_id_eq hnd hr hb h
    subst this
    simp
  · simp [h]

/-- The loop of `checkQueue` is the fold of `promoteStep`, as long as no
scanned booking has period fields that are present and do not parse. -/
theorem checkQueueLoop_eq_foldl (l : List Booking) :
    ∀ (store : Store) (approvedSet : List Booking), LoopInv l store →
      (∀ r, r ∈ approvedSet ↔ r ∈ store ∧ r.status = .Approved) →
      (∀ b ∈ l, falsyStr b.startMonth = false → falsyStr b.endMonth = false →
        (parseDMY b.startMonth).isSome = true ∧ (parseDMY b.endMonth).isSome = true) →
      checkQueueLoop l store = (l.foldl promoteStep (store, approvedSet)).1 := by
  induction l with
  | nil => intro store approvedSet _ _ _; rfl
  | cons b l ih =>
    intro store approvedSet h happ hparse
    have hparse' := fun x hx => hparse x (List.mem_cons_of_mem _ hx)
    rw [List.foldl_cons]
    by_cases hf : falsyStr b.startMonth = false ∧ falsyStr b.endMonth = false
    · obtain ⟨h1, h2⟩ := hparse b (List.mem_cons_self _ _) hf.1 hf.2
      obtain ⟨startDate, hs⟩ := Option.isSome_iff_exists.1 h1
      obtain ⟨endDate, he⟩ := Option.isSome_iff_exists.1 h2
      obtain ⟨available, hav, hstep⟩ := scanStep_of_parse store hs he
      have hlow := lowestAvailable_eq_head? happ startDate endDate
      rw [getAvailableGarage_eq store hs he] at hav
      rw [(Option.some.inj hav)] at hlow
      cases available with
      | nil =>
        have hp : promoteStep (store, approvedSet) b = (store, approvedSet) := by
          simp [promoteStep, hs, he, hlow]
        simp only [checkQueueLoop, hstep, hp]
        exact ih store approvedSet h.tail happ hparse'
      | cons first tl =>
        have hp : promoteStep (store, approvedSet) b =
            (promote store b.id first,
              approvedSet ++ [{ b with garaj := some first, status := .Approved }]) := by
          simp [promoteStep, hs, he, hlow,
            promote_eq_map_const h.nodup (h.mem b (List.mem_cons_self _ _))]
        simp only [checkQueueLoop, hstep, hp]
        apply ih _ _ (h.promote first) _ hparse'
        intro r
        rw [List.mem_append, List.mem_singleton, happ,
          mem_promote h.nodup (h.mem b (List.mem_cons_self _ _))]
        constructor
        · rintro (⟨hr, hst⟩ | rfl)
          · refine ⟨Or.inl ⟨hr, ?_⟩, hst⟩
            intro e
            have := eq_of_id_eq h.nodup hr (h.mem b (List.mem_cons_self _ _)) e
            subst this
            have := h.pending r (List.mem_cons_self _ _)
            rw [hst] at this
            cases this
          · exact ⟨Or.inr rfl, rfl⟩
        · rintro ⟨⟨hr, _⟩ | rfl, hst⟩
          · exact Or.inl ⟨hr, hst⟩
          · exact Or.inr rfl
    · have hfalsy : (falsyStr b.startMonth || falsyStr b.endMonth) = true := by
        cases h1 : falsyStr b.startMonth <;> cases h2 : falsyStr b.endMonth <;> simp_all
      have hstep : scanStep store b = some store := by
        simp [scanStep, hfalsy]
      have hp : promoteStep (store, approvedSet) b = (store, approvedSet) := by
        rcases Bool.or_eq_true_iff.1 hfalsy with hx | hx
        · simp [promoteStep, parseDMY_of_falsyStr hx]
        · unfold promoteStep
          rw [parseDMY_of_falsyStr hx]
          split
          · rename_i heq
            cases heq
          · rfl
      simp only [checkQueueLoop, hstep, hp]
      exact ih store approvedSet h.tail happ hparse'

theorem periodsIntersect_comm (aStart aEnd bStart bEnd : JsDate) :
    periodsIntersect aStart aEnd bStart bEnd = periodsIntersect bStart bEnd aStart aEnd := by
  simp only [periodsIntersect]
  exact Bool.and_comm _ _

theorem mem_of_getAvailableGarage_singleton {store : Store} {s e : Option String}
    {startDate endDate : JsDate} (hs : parseDMY s = some startDate)
    (he : parseDMY e = some endDate) {g : Int}
    (h : getAvailableGarage store s e = some [g]) :
    g ∈ availableGaraj ∧ ∀ g' ∈ availableGaraj, g' ≠ g →
      g' ∈ occupiedGaraj store startDate endDate := by
  rw [getAvailableGarage_eq store hs he] at h
  have h' := Option.some.inj h
  have hmem : ∀ x, x ∈ availableGaraj.filter
      (fun g => !(occupiedGaraj store startDate endDate).contains g) ↔ x = g := by
    intro x
    rw [h']
    simp
  constructor
  · exact (List.mem_filter.1 ((hmem g).2 rfl)).1
  · intro g' hg' hne
    by_contra hc
    apply hne
    apply (hmem g').1
    rw [List.mem_filter]
    exact ⟨hg', by simpa using hc⟩

/-- The first of two pending bookings is promoted to the only garage that is
available for it. -/
theorem scanStep_first {store : Store} {p : Booking} {pStart pEnd : JsDate} {g : Int}
    (hps : parseDMY p.startMonth = some pStart) (hpe : parseDMY p.endMonth = some pEnd)
    (hav : getAvailableGarage store p.startMonth p.endMonth = some [g]) :
    scanStep store p = some (promote store p.id g) := by
  obtain ⟨available, hav', hstep⟩ := scanStep_of_parse store hps hpe
  rw [hav] at hav'
  cases (Option.some.inj hav')
  exact hstep

/-- The promoted record occupies its garage in every period that intersects
its own. -/
theorem occupies_promoted {p : Booking} {pStart pEnd qStart qEnd : JsDate} {g : Int}
    (hps : parseDMY p.startMonth = some pStart) (hpe : parseDMY p.endMonth = some pEnd)
    (hg : g ∈ availableGaraj) :
    occupies qStart qEnd { p with garaj := some g, status := .Approved } =
      periodsIntersect pStart pEnd qStart qEnd := by
  rw [Bool.eq_iff_iff, occupies_iff, periodsIntersect_comm pStart pEnd qStart qEnd]
  constructor
  · rintro ⟨_, bStart, bEnd, h1, h2, h3⟩
    rw [hps] at h1
    rw [hpe] at h2
    cases (Option.some.inj h1)
    cases (Option.some.inj h2)
    exact h3
  · intro h
    exact ⟨falsyNum_of_mem_pool hg, pStart, pEnd, hps, hpe, h⟩

/-- Two pending bookings that compete for one garage over intersecting
periods: the first is promoted, the second is left as it is. -/
theorem checkQueueLoop_competing {store : Store} {p q : Booking}
    {pStart pEnd qStart qEnd : JsDate} {g : Int} (h : LoopInv [p, q] store)
    (hps : parseDMY p.startMonth = some pStart) (hpe : parseDMY p.endMonth = some pEnd)
    (hqs : parseDMY q.startMonth = some qStart) (hqe : parseDMY q.endMonth = some qEnd)
    (hpav : getAvailableGarage store p.startMonth p.endMonth = some [g])
    (hqav : getAvailableGarage store q.startMonth q.endMonth = some [g])
    (hint : periodsIntersect pStart pEnd qStart qEnd = true) :
    { p with garaj := some g, status := .Approved } ∈ checkQueueLoop [p, q] store ∧
      q ∈ checkQueueLoop [p, q] store := by
  have hstep := scanStep_first hps hpe hpav
  have hmemp := h.mem p (List.mem_cons_self _ _)
  have hp' := promoted_mem_promote h.nodup hmemp g
  have hg := (mem_of_getAvailableGarage_singleton hps hpe hpav).1
  simp only [checkQueueLoop.eq_2 _ p, hstep]
  refine ⟨mem_checkQueueLoop_of_approved (h.promote g) hp' rfl, ?_⟩
  apply mem_checkQueueLoop_of_blocked [q] (h.promote g) (List.mem_cons_self _ _) hqs hqe
  intro g' hg'
  by_cases hne : g' = g
  · subst hne
    rw [mem_occupiedGaraj]
    exact ⟨_, hp', rfl, rfl, by rw [occupies_promoted hps hpe hg']; exact hint⟩
  · exact occupiedGaraj_step h hstep
      ((mem_of_getAvailableGarage_singleton hqs hqe hqav).2 g' hg' hne)

/-- Two pending bookings with disjoint periods for which the same single
garage is available: both are promoted to it. -/
theorem checkQueueLoop_disjoint {store : Store} {p q : Booking}
    {pStart pEnd qStart qEnd : JsDate} {g : Int} (h : LoopInv [p, q] store)
    (hps : parseDMY p.startMonth = some pStart) (hpe : parseDMY p.endMonth = some pEnd)
    (hqs : parseDMY q.startMonth = some qStart) (hqe : parseDMY q.endMonth = some qEnd)
    (hpav : getAvailableGarage store p.startMonth p.endMonth = some [g])
    (hqav : getAvailableGarage store q.startMonth q.endMonth = some [g])
    (hdis : periodsIntersect pStart pEnd qStart qEnd = false) :
    { p with garaj := some g, status := .Approved } ∈ checkQueueLoop [p, q] store ∧
      { q with garaj := some g, status := .Approved } ∈ checkQueueLoop [p, q] store := by
  have hstep := scanStep_first hps hpe hpav
  have hmemp := h.mem p (List.mem_cons_self _ _)
  have hp' := promoted_mem_promote h.nodup hmemp g
  have h1 := h.promote g
  have hqav' : getAvailableGarage (promote store p.id g) q.startMonth q.endMonth = some [g] := by
    rw [← hqav, getAvailableGarage_eq _ hqs hqe, getAvailableGarage_eq _ hqs hqe]
    congr 1
    apply List.filter_congr
    intro g' hg'
    congr 1
    rw [Bool.eq_iff_iff, contains_eq_true_iff, contains_eq_true_iff]
    constructor
    · intro hocc
      rw [mem_occupiedGaraj] at hocc ⊢
      obtain ⟨r, hr, hst, hgar, ho⟩ := hocc
      rcases (mem_promote h.nodup hmemp g r).1 hr with ⟨hr', _⟩ | rfl
      · exact ⟨r, hr', hst, hgar, ho⟩
      · exfalso
        have hgg : g = g' := Option.some.inj hgar
        subst hgg
        rw [occupies_promoted hps hpe hg', hdis] at ho
        cases ho
    · exact occupiedGaraj_step h hstep
  have hstep2 := scanStep_first hqs hqe hqav'
  simp only [checkQueueLoop, hstep, hstep2]
  have hmemq := h1.mem q (List.mem_cons_self _ _)
  refine ⟨?_, promoted_mem_promote h1.nodup hmemq g⟩
  refine (mem_promote h1.nodup hmemq g _).2 (Or.inl ⟨hp', ?_⟩)
  exact fun e => h.head_id_ne (List.mem_cons_self q []) e.symm

/-- C9. One run of `checkQueue` on a store with distinct keys in which no
Pending booking has period fields that are present but do not parse.  The run
is the left fold `checkQueueSpec` over the Pending bookings sorted by key:
each entry whose period parses gets the status Approved and the lowest garage
available with respect to the bookings approved at the start and the
promotions made before it in the run, and is left as it is when there is
none.  When just two bookings `p`, `q` wait, in this order, and one and the
same garage `g` is the only one available for either: if their periods do not
intersect both are promoted to `g`; if they intersect `p` is promoted and `q`
is left as it is. -/
theorem checkQueue_eq_fold (store : Store)
    (hnd : (store.map (fun b => b.id)).Nodup)
    (hparse : ∀ b ∈ store, b.status = .Pending →
      falsyStr b.startMonth = false → falsyStr b.endMonth = false →
        (parseDMY b.startMonth).isSome = true ∧ (parseDMY b.endMonth).isSome = true) :
    checkQueue store = checkQueueSpec store ∧
    (pendingBookings store).Sorted (fun a b => a.id ≤ b.id) ∧
    (pendingBookings store).Perm (store.filter (fun b => b.status == Status.Pending)) ∧
    ∀ (p q : Booking) (pStart pEnd qStart qEnd : JsDate) (g : Int),
      pendingBookings store = [p, q] →
      parseDMY p.startMonth = some pStart → parseDMY p.endMonth = some pEnd →
      parseDMY q.startMonth = some qStart → parseDMY q.endMonth = some qEnd →
      getAvailableGarage store p.startMonth p.endMonth = some [g] →
      getAvailableGarage store q.startMonth q.endMonth = some [g] →
      p.id < q.id ∧
      (periodsIntersect pStart pEnd qStart qEnd = false →
        { p with garaj := some g, status := .Approved } ∈ checkQueue store ∧
        { q with garaj := some g, status := .Approved } ∈ checkQueue store) ∧
      (periodsIntersect pStart pEnd qStart qEnd = true →
        { p with garaj := some g, status := .Approved } ∈ checkQueue store ∧
        q ∈ checkQueue store) := by
  have hinv := loopInv_pendingBookings hnd
  refine ⟨?_, pendingBookings_sorted store, List.perm_insertionSort _ _, ?_⟩
  · unfold checkQueue checkQueueSpec
    apply checkQueueLoop_eq_foldl _ _ _ hinv
    · intro r
      simp [List.mem_filter]
    · intro b hb
      obtain ⟨hbs, hst⟩ := mem_pendingBookings.1 hb
      exact hparse b hbs hst
  · intro p q pStart pEnd qStart qEnd g hl hps hpe hqs hqe hpav hqav
    have hsorted := pendingBookings_sorted store
    rw [hl] at hinv hsorted
    have hle : p.id ≤ q.id := List.rel_of_sorted_cons hsorted q (List.mem_cons_self _ _)
    have hne : q.id ≠ p.id := hinv.head_id_ne (List.mem_cons_self _ _)
    refine ⟨by omega, ?_, ?_⟩
    · intro hdis
      rw [checkQueue, hl]
      exact checkQueueLoop_disjoint hinv hps hpe hqs hqe hpav hqav hdis
    · intro hint
      rw [checkQueue, hl]
      exact checkQueueLoop_competing hinv hps hpe hqs hqe hpav hqav hint

/-- With garage 8 alone free and two bookings of intersecting periods waiting, the run
equals the fold, the booking with key 9 gets garage 8 and the one with key 10 waits on. -/
theorem checkQueue_eq_fold_witness :
    checkQueue queueStore = checkQueueSpec queueStore ∧
    { pendingNine with garaj := some 8, status := .Approved } ∈ checkQueue queueStore ∧
    pendingTen ∈ checkQueue queueStore :=
  have h := checkQueue_eq_fold queueStore (by decide) (by decide)
  ⟨h.1, (h.2.2.2 pendingNine pendingTen (.ymd 2025 0 1) (.ymd 2025 2 31) (.ymd 2025 1 1)
    (.ymd 2025 3 30) 8 (by decide) (by decide) (by decide) (by decide) (by decide) (by decide)
    (by decide)).2.2 (by decide)⟩

/-- With garages 7 and 8 free, the booking with key 9 (January to March) and the one with
key 11 (January to April) waiting: key 11 is promoted, hence so is key 9. -/
theorem checkQueue_fifo_witness :
    ∃ r ∈ checkQueue queueStoreTwoFree, r.id = pendingNine.id ∧ r.status = .Approved := by
  obtain ⟨_, _, _, _, _, h⟩ :=
    checkQueue_fifo queueStoreTwoFree pendingNine pendingEleven (.ymd 2025 0 1) (.ymd 2025 2 31)
      (.ymd 2025 0 1) (.ymd 2025 3 30) (by decide) (by decide) (by decide) (by decide)
      (by decide) (by decide) (by decide) (by decide) (by decide) (by decide)
  exact h (by decide) (by decide)



/-- Garage 1 is held from January 2025; a candidate from November 2024 to January 2025
does not get garage 1. -/
theorem getAvailableGarage_spec_witness :
    ∃ available, getAvailableGarage (fullStore.take 1) (some "01/11/2024") (some "31/01/2025") =
      some available ∧ (1 : Int) ∉ available := by
  obtain ⟨available, h1, _, _, _, h5⟩ :=
    getAvailableGarage_spec (fullStore.take 1) (some "01/11/2024") (some "31/01/2025")
      (.ymd 2024 10 1) (.ymd 2025 0 31) (by decide) (by decide)
  exact ⟨available, h1,
    h5 { bookingData 1 scenarioRequest (.ymd 2025 0 1) with garaj := some 1, status := .Approved }
      (by decide) 1 (.ymd 2025 0 1) (.ymd 2025 2 31) (by decide) (by decide) (by decide)
      (by decide) (by decide) (by decide) (by decide) (by decide)⟩

/-! ## Stores that the operations reach -/

theorem mem_update {store : Store} {id : Nat} {data : Booking → Booking} {fresh r : Booking}
    (h : r ∈ update store id data fresh) :
    (r ∈ store ∧ r.id ≠ id) ∨ r = fresh ∨ ∃ b ∈ store, b.id = id ∧ r = data b := by
  unfold update at h
  split at h
  · obtain ⟨b, hb, rfl⟩ := List.mem_map.1 h
    by_cases e : b.id = id
    · exact Or.inr (Or.inr ⟨b, hb, e, by simp [e]⟩)
    · exact Or.inl (by simp [e, hb])
  · rename_i hany
    rcases List.mem_append.1 h with h | h
    · refine Or.inl ⟨h, ?_⟩
      intro e
      apply hany
      exact List.any_eq_true.2 ⟨r, h, by simp [e]⟩
    · exact Or.inr (Or.inl (List.mem_singleton.1 h))

theorem nodup_update {store : Store} {id : Nat} {data : Booking → Booking} {fresh : Booking}
    (hnd : (store.map (fun b => b.id)).Nodup) (hdata : ∀ b, (data b).id = b.id)
    (hfresh : fresh.id = id) : ((update store id data fresh).map (fun b => b.id)).Nodup := by
  unfold update
  split
  · rw [List.map_map]
    have : (fun b => b.id) ∘ (fun b => if (b.id == id) = true then data b else b) =
        fun b => b.id := by
      funext b
      by_cases e : b.id = id <;> simp [e, hdata]
    rw [this]
    exact hnd
  · rename_i hany
    rw [List.map_append, List.map_singleton, hfresh]
    refine List.Nodup.append hnd (List.nodup_singleton _) ?_
    intro x hx hx'
    rw [List.mem_singleton] at hx'
    subst hx'
    obtain ⟨b, hb, e⟩ := List.mem_map.1 hx
    apply hany
    exact List.any_eq_true.2 ⟨b, hb, by simp [e]⟩

/-- An update that leaves the period fields alone and does not make a record
Pending keeps the store well formed. -/
theorem WellFormed.update {store : Store} (h : WellFormed store) {id : Nat}
    {data : Booking → Booking} {fresh : Booking} (hdata : ∀ b, (data b).id = b.id)
    (hfresh : fresh.id = id) (hst : ∀ b, (data b).status ≠ .Pending ∨ b.status ≠ .Approved ∧
      (data b).status = b.status ∧ (data b).startMonth = b.startMonth ∧
      (data b).endMonth = b.endMonth)
    (hfst : fresh.status ≠ .Pending) : WellFormed (update store id data fresh) := by
  refine ⟨nodup_update h.1 hdata hfresh, ?_⟩
  intro r hr hp
  rcases mem_update hr with ⟨hr', _⟩ | rfl | ⟨b, hb, _, rfl⟩
  · exact h.2 r hr' hp
  · exact absurd hp hfst
  · rcases hst b with hne | ⟨_, h1, h2, h3⟩
    · exact absurd hp hne
    · rw [h2, h3]
      exact h.2 b hb (h1 ▸ hp)

theorem mem_checkQueueLoop (l : List Booking) :
    ∀ {store : Store}, LoopInv l store → ∀ {r : Booking}, r ∈ checkQueueLoop l store →
      r ∈ store ∨ r.status = .Approved := by
  induction l with
  | nil => intro store _ r hr; exact Or.inl hr
  | cons b l ih =>
    intro store h r hr
    cases hs : scanStep store b with
    | none =>
      simp only [checkQueueLoop, hs] at hr
      exact Or.inl hr
    | some next =>
      simp only [checkQueueLoop, hs] at hr
      rcases ih (h.step hs) hr with hr' | hst
      · rcases scanStep_cases hs with rfl | ⟨first, rfl⟩
        · exact Or.inl hr'
        · rcases (mem_promote h.nodup (h.mem b (List.mem_cons_self _ _)) first r).1 hr' with
            ⟨hm, _⟩ | rfl
          · exact Or.inl hm
          · exact Or.inr rfl
      · exact Or.inr hst

theorem WellFormed.checkQueue {store : Store} (h : WellFormed store) :
    WellFormed (checkQueue store) := by
  have hinv := loopInv_pendingBookings h.1
  constructor
  · exact nodup_checkQueueLoop hinv
  · intro r hr hp
    rcases mem_checkQueueLoop _ hinv hr with hr' | hst
    · exact h.2 r hr' hp
    · rw [hp] at hst
      cases hst

theorem WellFormed.append {store : Store} (h : WellFormed store) {r : Booking}
    (hkey : store.all (fun b => b.id != r.id) = true)
    (hr : r.status = .Pending →
      (parseDMY r.startMonth).isSome = true ∧ (parseDMY r.endMonth).isSome = true) :
    WellFormed (store ++ [r]) := by
  constructor
  · rw [List.map_append, List.map_singleton]
    refine List.Nodup.append h.1 (List.nodup_singleton _) ?_
    intro x hx hx'
    rw [List.mem_singleton] at hx'
    subst hx'
    obtain ⟨b, hb, e⟩ := List.mem_map.1 hx
    have := List.all_eq_true.1 hkey b hb
    simp [e] at this
  · intro b hb hp
    rcases List.mem_append.1 hb with hb | hb
    · exact h.2 b hb hp
    · rw [List.mem_singleton] at hb
      subst hb
      exact hr hp

/-- The store after `POST /bookings`: as before, or with one more record,
which has the new key and the period that `getAvailableGarage` parsed. -/
theorem createBooking_store (store : Store) (key : Nat) (req : CreateRequest) :
    (createBooking store key req).2 = store ∨
    ∃ startDate available g st,
      getAvailableGarage store (bookingData key req startDate).startMonth
        (bookingData key req startDate).endMonth = some available ∧
      (createBooking store key req).2 =
        store ++ [{ bookingData key req startDate with garaj := g, status := st }] ∧
      ((g = none ∧ st = .Pending) ∨ (∃ n, g = some n ∧ n ∈ available ∧ st = .Approved)) := by
  by_cases hf : missingField req = true
  · left; simp [createBooking, hf]
  · cases hsm : req.startMonth with
    | undefined => left; simp [createBooking, hf, hsm]
    | num n => left; simp [createBooking, hf, hsm]
    | str startMonth =>
      cases hst : parseDMY (some (startDateText startMonth)) with
      | none => left; simp [createBooking, hf, hsm, hst]
      | some startDate =>
        cases hav : getAvailableGarage store (some (formatDateDMY startDate))
            (some (formatDateDMY (endDateOf startDate (parseInt req.duration)))) with
        | none => left; simp [createBooking, hf, hsm, hst, bookingData, hav]
        | some available =>
          have heq := createBooking_eq store key req startMonth startDate available
            (by simpa using hf) hsm hst hav
          rw [heq]
          cases available with
          | nil =>
            right
            exact ⟨startDate, [], none, .Pending, hav, rfl, Or.inl ⟨rfl, rfl⟩⟩
          | cons first tl =>
            cases hp : (if req.garaj.truthy then parseInt req.garaj else none) with
            | none =>
              right
              refine ⟨startDate, first :: tl, some first, .Approved, hav, ?_,
                Or.inr ⟨first, rfl, List.mem_cons_self _ _, rfl⟩⟩
              simp only [allocate, hp]
            | some p =>
              by_cases hp0 : p = 0
              · right
                refine ⟨startDate, first :: tl, some first, .Approved, hav, ?_,
                  Or.inr ⟨first, rfl, List.mem_cons_self _ _, rfl⟩⟩
                simp only [allocate, hp]
                simp [hp0]
              · by_cases hmem : p ∈ first :: tl
                · right
                  refine ⟨startDate, first :: tl, some p, .Approved, hav, ?_,
                    Or.inr ⟨p, rfl, hmem, rfl⟩⟩
                  simp only [allocate, hp]
                  simp [hp0, hmem]
                · left
                  simp only [allocate, hp]
                  simp [hp0, hmem]

theorem WellFormed.createBooking {store : Store} (h : WellFormed store) (key : Nat)
    (req : CreateRequest) (hkey : store.all (fun b => b.id != key) = true) :
    WellFormed (createBooking store key req).2 := by
  rcases createBooking_store store key req with heq | ⟨startDate, available, g, st, hav, heq, _⟩
  · rw [heq]; exact h
  · rw [heq]
    obtain ⟨sd, ed, h1, h2⟩ := getAvailableGarage_isSome store hav
    refine h.append hkey (fun _ => ?_)
    exact ⟨by rw [show parseDMY (bookingData key req startDate).startMonth = some sd from h1]; rfl,
      by rw [show parseDMY (bookingData key req startDate).endMonth = some ed from h2]; rfl⟩

theorem WellFormed.assignGaraj {store : Store} (h : WellFormed store) (id : Nat) (garaj : JsVal) :
    WellFormed (assignGaraj store id garaj).2 := by
  unfold Garage.assignGaraj
  split
  · exact h
  · split
    · exact h
    · split
      · exact h
      · split
        · exact h
        · split
          · exact h
          · exact h.update (fun _ => rfl) rfl (fun _ => Or.inl (by simp)) (by simp [bareRecord])

theorem WellFormed.extendBooking {store : Store} (h : WellFormed store) (id : Nat) (extra : JsVal) :
    WellFormed (extendBooking store id extra).2 := by
  unfold Garage.extendBooking
  split
  · exact h
  · split
    · exact h
    · split
      · exact h
      · rename_i booking hchild
        split
        · exact h
        · rename_i hst
          split
          · exact h
          · dsimp only
            split
            · exact h
            · have hid : booking.id = id := by
                have := List.find?_some hchild
                simpa using this
              have happ : booking.status = .Approved := by
                simp only [Bool.or_eq_true, not_or] at hst
                simpa using hst.1
              refine ⟨nodup_update h.1 (fun _ => rfl) hid, ?_⟩
              intro r hr hp
              rcases mem_update hr with ⟨hr', _⟩ | rfl | ⟨b, hb, hbid, rfl⟩
              · exact h.2 r hr' hp
              · rw [happ] at hp
                cases hp
              · have hmem : booking ∈ store := List.mem_of_find?_eq_some hchild
                have := eq_of_id_eq h.1 hb hmem (hbid.trans hid.symm)
                subst this
                rw [happ] at hp
                cases hp

theorem WellFormed.remove {store : Store} (h : WellFormed store) (id : Nat) :
    WellFormed (remove store id) := by
  constructor
  · exact h.1.sublist ((List.filter_sublist _).map _)
  · intro b hb hp
    exact h.2 b (List.mem_filter.1 hb).1 hp

/-- Every store that the operations reach from the empty store has distinct
keys, and the period of each of its Pending bookings parses. -/
theorem reachable_wellFormed {store : Store} (h : Reachable store) : WellFormed store := by
  induction h with
  | empty => exact ⟨List.nodup_nil, fun b hb => by simp at hb⟩
  | step store op _ hkey ih =>
    cases op with
    | create key req => exact ih.createBooking key req hkey
    | assign id garaj => exact ih.assignGaraj id garaj
    | reject id =>
      exact ih.update (fun _ => rfl) rfl (fun _ => Or.inl (by simp)) (by simp [bareRecord])
    | cancel id =>
      exact WellFormed.checkQueue
        (ih.update (fun _ => rfl) rfl (fun _ => Or.inl (by simp)) (by simp [bareRecord]))
    | extend id extra => exact ih.extendBooking id extra
    | delete id => exact WellFormed.checkQueue (ih.remove id)
    | checkQueue => exact ih.checkQueue

/-! ## The `Date` constructor on calendar days -/

theorem daysInMonth_bounds (y : Int) (m : Nat) : 28 ≤ daysInMonth y m ∧ daysInMonth y m ≤ 31 := by
  unfold daysInMonth
  split <;> (try split) <;> omega

theorem prevMonth_le (y : Int) (m : Nat) (h : m ≤ 11) : (prevMonth y m).2 ≤ 11 := by
  unfold prevMonth
  split
  · simp
  · simp only
    omega

theorem nextMonth_le (y : Int) (m : Nat) (h : m ≤ 11) : (nextMonth y m).2 ≤ 11 := by
  unfold nextMonth
  split
  · simp
  · simp only
    omega

/-- With one unit of fuel for each day of the offset, `carryDays` ends on a
day of the month it returns. -/
theorem carryDays_valid (fuel : Nat) :
    ∀ (y : Int) (m : Nat) (d : Int), m ≤ 11 →
      ((1 ≤ d ∧ d ≤ daysInMonth y m) ∨ d.natAbs < fuel) →
      (carryDays fuel y m d).2.1 ≤ 11 ∧ 1 ≤ (carryDays fuel y m d).2.2 ∧
        (carryDays fuel y m d).2.2 ≤
          daysInMonth (carryDays fuel y m d).1 (carryDays fuel y m d).2.1 := by
  induction fuel with
  | zero =>
    intro y m d hm h
    rcases h with h | h
    · exact ⟨hm, h.1, h.2⟩
    · omega
  | succ fuel ih =>
    intro y m d hm h
    unfold carryDays
    by_cases h1 : d < 1
    · simp only [h1, if_true]
      have hb := daysInMonth_bounds (prevMonth y m).1 (prevMonth y m).2
      apply ih _ _ _ (prevMonth_le y m hm)
      rcases h with h | h
      · omega
      · by_cases h2 : 1 ≤ d + daysInMonth (prevMonth y m).1 (prevMonth y m).2
        · left; omega
        · right; omega
    · simp only [h1, if_false]
      by_cases h2 : daysInMonth y m < d
      · simp only [h2, if_true]
        have hb := daysInMonth_bounds y m
        have hb' := daysInMonth_bounds (nextMonth y m).1 (nextMonth y m).2
        apply ih _ _ _ (nextMonth_le y m hm)
        rcases h with h | h
        · omega
        · right; omega
      · simp only [h2, if_false]
        exact ⟨hm, by omega, by omega⟩

theorem mkDate_isDay (y m d : Int) : mkDate y m d = .invalid ∨ (mkDate y m d).isDay = true := by
  unfold mkDate
  simp only
  split
  · right
    rename_i hr
    have hm : (m % 12).toNat ≤ 11 := by omega
    have := carryDays_valid (d.natAbs + 1) (makeFullYear y + m / 12) (m % 12).toNat d hm
      (Or.inr (by omega))
    obtain ⟨h1, h2, h3⟩ := this
    have hcast : ((carryDays (d.natAbs + 1) (makeFullYear y + m / 12) (m % 12).toNat d).2.2.toNat : Int)
        = (carryDays (d.natAbs + 1) (makeFullYear y + m / 12) (m % 12).toNat d).2.2 := by omega
    simp only [JsDate.isDay, Bool.and_eq_true, decide_eq_true_eq, hcast]
    exact ⟨⟨⟨h1, by omega⟩, h3⟩, hr⟩
  · left; rfl

theorem newDate_isDay (y m d : Option Int) :
    newDate y m d = .invalid ∨ (newDate y m d).isDay = true := by
  unfold newDate
  split
  · exact mkDate_isDay _ _ _
  · left; rfl

theorem parseDMY_isDay {s : Option String} {date : JsDate} (h : parseDMY s = some date) :
    date = .invalid ∨ date.isDay = true := by
  unfold parseDMY at h
  split at h
  · cases h
  · dsimp only at h
    split at h
    · cases h
    · split at h
      · split at h
        · cases (Option.some.inj h)
          exact mkDate_isDay _ _ _
        · cases h
      · split at h
        · split at h
          · cases (Option.some.inj h)
            exact newDate_isDay _ _ _
          · cases h
        · cases h

/-- The first day of the month `k` months after January of year `y`. -/
theorem mkDate_first (y k : Int) :
    mkDate y k 1 =
      if inDateRange (makeFullYear y + k / 12) (k % 12).toNat 1 then
        .ymd (makeFullYear y + k / 12) (k % 12).toNat 1
      else .invalid := by
  have hb := daysInMonth_bounds (makeFullYear y + k / 12) (k % 12).toNat
  have h2 : ¬ daysInMonth (makeFullYear y + k / 12) (k % 12).toNat < 1 := by omega
  simp [mkDate, carryDays, h2]

/-- Day 0 of a month is the last day of the month before it. -/
theorem mkDate_zero (y k : Int) :
    mkDate y k 0 =
      let p := prevMonth (makeFullYear y + k / 12) (k % 12).toNat
      if inDateRange p.1 p.2 (daysInMonth p.1 p.2) then
        .ymd p.1 p.2 (daysInMonth p.1 p.2).toNat
      else .invalid := by
  simp [mkDate, carryDays]


theorem prevMonth_index (y : Int) (m : Nat) :
    12 * (prevMonth y m).1 + ((prevMonth y m).2 : Int) = 12 * y + m - 1 := by
  unfold prevMonth
  split
  · rename_i h
    subst h
    simp only
    omega
  · simp only
    omega

/-- The end of an extension, for a booking that ends in month `m` of a year
`y` from 100 on: `Invalid Date`, or the last day of the month `n` months after
that month. -/
theorem newEndDateOf_month (y : Int) (m d : Nat) (n : Int) (hm : m ≤ 11) (hy : 100 ≤ y) :
    newEndDateOf (checkStartDateOf (.ymd y m d)) n = .invalid ∨
      ∃ Y M, newEndDateOf (checkStartDateOf (.ymd y m d)) n =
          .ymd Y M (daysInMonth Y M).toNat ∧ M ≤ 11 ∧ 12 * Y + (M : Int) = 12 * y + m + n := by
  have hstart : checkStartDateOf (.ymd y m d) = mkDate y (m + 1) 1 := by
    simp [checkStartDateOf, JsDate.getFullYear, JsDate.getMonth, jsAdd, newDate]
  have hfy : makeFullYear y = y := by
    simp only [makeFullYear]
    split
    · omega
    · rfl
  rw [hstart, mkDate_first, hfy]
  split
  · have hy1 : makeFullYear (y + ((m : Int) + 1) / 12) = y + ((m : Int) + 1) / 12 := by
      simp only [makeFullYear]
      split
      · omega
      · rfl
    have hend : newEndDateOf (.ymd (y + ((m : Int) + 1) / 12) (((m : Int) + 1) % 12).toNat 1) n =
        mkDate (y + ((m : Int) + 1) / 12) ((((m : Int) + 1) % 12).toNat + n) 0 := by
      simp [newEndDateOf, JsDate.getFullYear, JsDate.getMonth, jsAdd, newDate]
    rw [hend, mkDate_zero, hy1]
    simp only
    split
    · right
      refine ⟨_, _, rfl, ?_, ?_⟩
      · apply prevMonth_le
        omega
      · rw [prevMonth_index]
        omega
    · left; rfl
  · left
    simp [newEndDateOf, JsDate.getFullYear, JsDate.getMonth, jsAdd, newDate]

/-- What a successful extension writes: the record `id` gets the text of
`newEndDate` as `endMonth` and its duration grows by the extra months; nothing
else changes. -/
theorem extendBooking_ok {store store' : Store} {id : Nat} {extra : JsVal}
    (h : extendBooking store id extra = (.ok, store')) :
    ∃ n booking currentEndDate, parseInt extra = some n ∧ 0 < n ∧
      child store id = some booking ∧ booking.status = .Approved ∧
      parseDMY booking.endMonth = some currentEndDate ∧
      store' = store.map (fun b =>
        if b.id == id then
          { b with
            endMonth := some (formatDateDMY (newEndDateOf (checkStartDateOf currentEndDate) n)),
            duration := jsAdd booking.duration (some n) }
        else b) := by
  unfold extendBooking at h
  split at h
  · cases h
  · rename_i n hn
    split at h
    · cases h
    · rename_i hpos
      split at h
      · cases h
      · rename_i booking hchild
        split at h
        · cases h
        · rename_i hst
          split at h
          · cases h
          · rename_i currentEndDate hparse
            dsimp only at h
            split at h
            · cases h
            · have hmem : booking ∈ store := List.mem_of_find?_eq_some hchild
              have hid : booking.id = id := by
                have := List.find?_some hchild
                simpa using this
              have hany : store.any (fun b => b.id == id) = true :=
                List.any_eq_true.2 ⟨booking, hmem, by simp [hid]⟩
              have happ : booking.status = .Approved := by
                simp only [Bool.or_eq_true, not_or] at hst
                simpa using hst.1
              refine ⟨n, booking, currentEndDate, hn, by omega, hchild, happ, hparse, ?_⟩
              have := (Prod.mk.inj h).2
              rw [← this]
              simp [update, hany]

/-- C8 within the range of `Date`.  After a successful extension by `n` months
of a booking that ends in month `m` of a year `y` from 100 on, if the new end
is a date at all, it is the last day of the month `n` months after month `m`
of `y`; the duration has grown by `n` and no other field or record has
changed. -/
theorem extendBooking_ok_in_range {store store' : Store} {id : Nat} {extra : JsVal}
    (h : extendBooking store id extra = (.ok, store')) :
    ∃ n booking currentEndDate, parseInt extra = some n ∧ 0 < n ∧
      child store id = some booking ∧
      parseDMY booking.endMonth = some currentEndDate ∧
      store' = store.map (fun b =>
        if b.id == id then
          { b with
            endMonth := some (formatDateDMY (newEndDateOf (checkStartDateOf currentEndDate) n)),
            duration := jsAdd booking.duration (some n) }
        else b) ∧
      ∀ y m d, currentEndDate = .ymd y m d → 100 ≤ y →
        newEndDateOf (checkStartDateOf currentEndDate) n ≠ .invalid →
        ∃ Y M, newEndDateOf (checkStartDateOf currentEndDate) n =
            .ymd Y M (daysInMonth Y M).toNat ∧ M ≤ 11 ∧
          12 * Y + (M : Int) = 12 * y + m + n := by
  obtain ⟨n, booking, currentEndDate, hn, hpos, hchild, _, hparse, hstore⟩ := extendBooking_ok h
  refine ⟨n, booking, currentEndDate, hn, hpos, hchild, hparse, hstore, ?_⟩
  intro y m d hc hy hvalid
  subst hc
  have hm : m ≤ 11 := by
    rcases parseDMY_isDay hparse with hinv | hday
    · cases hinv
    · simp only [JsDate.isDay, Bool.and_eq_true, decide_eq_true_eq] at hday
      exact hday.1.1.1
  rcases newEndDateOf_month y m d n hm hy with hinv | hres
  · exact absurd hinv hvalid
  · exact hres


/-! ## The text of a date parses back -/

theorem toNat_ofNat_digit (k : Nat) (hk : k < 10) : (Char.ofNat (48 + k)).toNat = 48 + k := by
  interval_cases k <;> rfl

/-- The digits that `String(n)` writes, least significant first. -/
theorem natDigitsRev_spec (fuel : Nat) :
    ∀ n, n < fuel →
      natDigitsRev fuel n ≠ [] ∧ (∀ c ∈ natDigitsRev fuel n, isAsciiDigit c = true) ∧
      (natDigitsRev fuel n).foldr (fun c a => (c.toNat - 48) + 10 * a) 0 = n := by
  induction fuel with
  | zero => intro n h; omega
  | succ fuel ih =>
    intro n h
    have hk : n % 10 < 10 := Nat.mod_lt _ (by omega)
    have hc := toNat_ofNat_digit (n % 10) hk
    unfold natDigitsRev
    by_cases h10 : n < 10
    · simp only [h10, if_true]
      refine ⟨by simp, ?_, ?_⟩
      · intro c hcm
        rw [List.mem_singleton] at hcm
        subst hcm
        simp only [isAsciiDigit, hc, Bool.and_eq_true, decide_eq_true_eq]
        omega
      · simp only [List.foldr_cons, List.foldr_nil, hc]
        omega
    · simp only [h10, if_false]
      obtain ⟨_, h2, h3⟩ := ih (n / 10) (by omega)
      refine ⟨by simp, ?_, ?_⟩
      · intro c hcm
        rcases List.mem_cons.1 hcm with rfl | hcm
        · simp only [isAsciiDigit, hc, Bool.and_eq_true, decide_eq_true_eq]
          omega
        · exact h2 c hcm
      · simp only [List.foldr_cons, h3, hc]
        omega

theorem isAsciiDigit_iff (c : Char) : isAsciiDigit c = true ↔ 48 ≤ c.toNat ∧ c.toNat ≤ 57 := by
  simp [isAsciiDigit]

theorem ne_of_toNat_ne {c : Char} {e : Char} (h : c.toNat ≠ e.toNat) : c ≠ e := by
  intro he
  exact h (congrArg Char.toNat he)

theorem isWhiteSpace_of_lt {c : Char} (h : c.toNat < 58) (h' : 33 ≤ c.toNat) :
    isWhiteSpace c = false := by
  simp only [isWhiteSpace, Bool.or_eq_false_iff, beq_eq_false_iff_ne, ne_eq, Bool.and_eq_false_iff,
    decide_eq_false_iff_not, not_le]
  refine ⟨⟨⟨⟨⟨⟨⟨⟨⟨⟨⟨⟨⟨⟨?_, ?_⟩, ?_⟩, ?_⟩, ?_⟩, ?_⟩, ?_⟩, ?_⟩, ?_⟩, ?_⟩, ?_⟩, ?_⟩, ?_⟩, ?_⟩, ?_⟩ <;> omega

theorem digitVal_of_digit {c : Char} (h : isAsciiDigit c = true) :
    digitVal c = some (c.toNat - 48) := by
  rw [isAsciiDigit_iff] at h
  simp [digitVal, h.1, h.2]

theorem takeDigits_of_digits (l : List Char) (hd : ∀ c ∈ l, isAsciiDigit c = true) :
    takeDigits 10 l = l.map (fun c => c.toNat - 48) := by
  induction l with
  | nil => rfl
  | cons c l ih =>
    have hc := hd c (List.mem_cons_self _ _)
    have hlt : c.toNat - 48 < 10 := by
      rw [isAsciiDigit_iff] at hc
      omega
    simp only [takeDigits, digitVal_of_digit hc, hlt, if_true, List.map_cons]
    rw [ih (fun x hx => hd x (List.mem_cons_of_mem _ hx))]

theorem stripRadix_of_digits (l : List Char) (hd : ∀ c ∈ l, isAsciiDigit c = true) :
    stripRadix l = (10, l) := by
  unfold stripRadix
  split
  · rename_i c x r
    have hx := (isAsciiDigit_iff x).1 (hd x (by simp))
    have h1 : x ≠ 'x' := ne_of_toNat_ne (by
      have : 'x'.toNat = 120 := rfl
      omega)
    have h2 : x ≠ 'X' := ne_of_toNat_ne (by
      have : 'X'.toNat = 88 := rfl
      omega)
    simp [h1, h2]
  · rfl

theorem stripSign_of_digits (l : List Char) (hd : ∀ c ∈ l, isAsciiDigit c = true) :
    stripSign l = (false, l) := by
  unfold stripSign
  split
  · rename_i c r
    have hc := (isAsciiDigit_iff c).1 (hd c (by simp))
    have h1 : c ≠ '-' := ne_of_toNat_ne (by
      have : '-'.toNat = 45 := rfl
      omega)
    have h2 : c ≠ '+' := ne_of_toNat_ne (by
      have : '+'.toNat = 43 := rfl
      omega)
    simp [h1, h2]
  · rfl

theorem dropWhile_of_digits (l : List Char) (hd : ∀ c ∈ l, isAsciiDigit c = true) :
    l.dropWhile isWhiteSpace = l := by
  cases l with
  | nil => rfl
  | cons c r =>
    have hc := (isAsciiDigit_iff c).1 (hd c (by simp))
    simp [List.dropWhile, isWhiteSpace_of_lt (c := c) (by omega) (by omega)]

theorem parseIntChars_of_tail (l : List Char) (neg : Bool) (hne : l ≠ [])
    (hd : ∀ c ∈ l, isAsciiDigit c = true) :
    (match takeDigits (stripRadix l).1 (stripRadix l).2 with
      | [] => (none : Option Int)
      | ds =>
        some (if neg then -((ds.foldl (fun a d => a * (stripRadix l).1 + d) 0 : Nat) : Int)
          else ((ds.foldl (fun a d => a * (stripRadix l).1 + d) 0 : Nat) : Int))) =
      some (if neg then -(digitsValue l : Int) else (digitsValue l : Int)) := by
  rw [stripRadix_of_digits l hd]
  simp only [takeDigits_of_digits l hd]
  have hval : (l.map (fun c => c.toNat - 48)).foldl (fun a d => a * 10 + d) 0 = digitsValue l := by
    rw [digitsValue, List.foldl_map]
  cases l with
  | nil => exact absurd rfl hne
  | cons c r =>
    simp only [List.map_cons] at hval ⊢
    rw [hval]

/-- `parseInt` reads a text of decimal digits as the number it denotes. -/
theorem parseIntChars_digits (l : List Char) (hne : l ≠ [])
    (hd : ∀ c ∈ l, isAsciiDigit c = true) : parseIntChars l = some (digitsValue l : Int) := by
  unfold parseIntChars
  rw [dropWhile_of_digits l hd, stripSign_of_digits l hd]
  simpa using parseIntChars_of_tail l false hne hd

theorem parseIntChars_neg_digits (l : List Char) (hne : l ≠ [])
    (hd : ∀ c ∈ l, isAsciiDigit c = true) :
    parseIntChars ('-' :: l) = some (-(digitsValue l : Int)) := by
  unfold parseIntChars
  have hw : isWhiteSpace '-' = false := by decide
  simp only [List.dropWhile, hw, stripSign, if_true]
  simpa using parseIntChars_of_tail l true hne hd


theorem digitsValue_reverse (l : List Char) :
    digitsValue l.reverse = l.foldr (fun c a => (c.toNat - 48) + 10 * a) 0 := by
  rw [digitsValue, List.foldl_reverse]
  congr 1
  funext c a
  omega

/-- The decimal text of a natural number: digits only, and it denotes the number. -/
theorem natText_spec (n : Nat) :
    (natDigitsRev (n + 1) n).reverse ≠ [] ∧
    (∀ c ∈ (natDigitsRev (n + 1) n).reverse, isAsciiDigit c = true) ∧
    digitsValue (natDigitsRev (n + 1) n).reverse = n := by
  obtain ⟨h1, h2, h3⟩ := natDigitsRev_spec (n + 1) n (by omega)
  refine ⟨by simpa using h1, ?_, ?_⟩
  · intro c hc
    exact h2 c (List.mem_reverse.1 hc)
  · rw [digitsValue_reverse, h3]

theorem parseIntChars_numToChars (n : Int) : parseIntChars (numToChars (some n)) = some n := by
  cases n with
  | ofNat n =>
    obtain ⟨h1, h2, h3⟩ := natText_spec n
    simp only [numToChars]
    rw [parseIntChars_digits _ h1 h2, h3]
    rfl
  | negSucc n =>
    obtain ⟨h1, h2, h3⟩ := natText_spec (n + 1)
    simp only [numToChars]
    rw [parseIntChars_neg_digits _ h1 h2, h3]
    rfl

theorem not_slash_of_digit {c : Char} (h : isAsciiDigit c = true) : c ≠ '/' := by
  rw [isAsciiDigit_iff] at h
  exact ne_of_toNat_ne (by
    have : '/'.toNat = 47 := rfl
    omega)

theorem slash_not_mem_numToChars (n : Int) : '/' ∉ numToChars (some n) := by
  intro h
  cases n with
  | ofNat n =>
    obtain ⟨_, h2, _⟩ := natText_spec n
    simp only [numToChars] at h
    exact not_slash_of_digit (h2 _ h) rfl
  | negSucc n =>
    obtain ⟨_, h2, _⟩ := natText_spec (n + 1)
    simp only [numToChars, List.mem_cons] at h
    rcases h with h | h
    · exact absurd h (by decide)
    · exact not_slash_of_digit (h2 _ h) rfl

/-- The two-digit text of a natural number: digits only, and it denotes the number. -/
theorem padStart2_spec (n : Nat) :
    '/' ∉ padStart2 (numToChars (some (n : Int))) ∧
    parseIntChars (padStart2 (numToChars (some (n : Int)))) = some (n : Int) := by
  obtain ⟨h1, h2, h3⟩ := natText_spec n
  have hnum : numToChars (some (n : Int)) = (natDigitsRev (n + 1) n).reverse := rfl
  rw [hnum]
  generalize (natDigitsRev (n + 1) n).reverse = l at h1 h2 h3
  match l, h1, h2, h3 with
  | [c], _, h2, h3 =>
    have hz : isAsciiDigit '0' = true := by decide
    have hd : ∀ x ∈ ['0', c], isAsciiDigit x = true := by
      intro x hx
      rcases List.mem_cons.1 hx with rfl | hx
      · exact hz
      · exact h2 x hx
    refine ⟨?_, ?_⟩
    · intro hm
      exact not_slash_of_digit (hd _ hm) rfl
    · simp only [padStart2]
      rw [parseIntChars_digits _ (by simp) hd]
      have : digitsValue ['0', c] = digitsValue [c] := by
        simp [digitsValue]
      rw [this, h3]
  | c1 :: c2 :: r, h1, h2, h3 =>
    refine ⟨?_, ?_⟩
    · intro hm
      exact not_slash_of_digit (h2 _ hm) rfl
    · simp only [padStart2]
      rw [parseIntChars_digits _ h1 h2, h3]

theorem splitOn_of_not_mem (sep : Char) (l : List Char) (h : sep ∉ l) : splitOn sep l = [l] := by
  induction l with
  | nil => rfl
  | cons c l ih =>
    have hc : c ≠ sep := fun e => h (e ▸ List.mem_cons_self _ _)
    have hl : sep ∉ l := fun hm => h (List.mem_cons_of_mem _ hm)
    simp [splitOn, hc, ih hl]

theorem splitOn_append (sep : Char) (a rest : List Char) (h : sep ∉ a) :
    splitOn sep (a ++ sep :: rest) = a :: splitOn sep rest := by
  induction a with
  | nil => simp [splitOn]
  | cons c a ih =>
    have hc : c ≠ sep := fun e => h (e ▸ List.mem_cons_self _ _)
    have ha : sep ∉ a := fun hm => h (List.mem_cons_of_mem _ hm)
    simp [splitOn, hc, ih ha]

/-- The constructor on a calendar day whose year is not `0..99` gives that day. -/
theorem mkDate_of_isDay {y : Int} {m d : Nat} (hday : (JsDate.ymd y m d).isDay = true)
    (hq : ¬(0 ≤ y ∧ y ≤ 99)) : mkDate y m d = .ymd y m d := by
  simp only [JsDate.isDay, Bool.and_eq_true, decide_eq_true_eq] at hday
  obtain ⟨⟨⟨hm, hd1⟩, hd2⟩, hr⟩ := hday
  have hfy : makeFullYear y = y := by
    simp only [makeFullYear]
    split
    · exact absurd (by assumption) hq
    · rfl
  have h1 : ¬ ((d : Int) < 1) := by omega
  have h2 : ¬ (daysInMonth y m < (d : Int)) := by omega
  have hdiv : (m : Int) / 12 = 0 := by omega
  have hmod : ((m : Int) % 12).toNat = m := by omega
  have hfuel : (d : Int).natAbs + 1 = (d + 1) := by omega
  simp only [mkDate, hfy, hdiv, hmod, add_zero, hfuel, carryDays, h1, h2, if_false, hr, if_true,
    Int.toNat_ofNat]

/-- The text that `formatDateDMY` writes for a calendar day whose year is not
`0..99` is read back by `parseDMY` as the same day. -/
theorem parseDMY_formatDateDMY {y : Int} {m d : Nat} (hday : (JsDate.ymd y m d).isDay = true)
    (hq : ¬(0 ≤ y ∧ y ≤ 99)) :
    parseDMY (some (formatDateDMY (.ymd y m d))) = some (.ymd y m d) := by
  obtain ⟨hd1, hd2⟩ := padStart2_spec d
  obtain ⟨hm1, hm2⟩ := padStart2_spec (m + 1)
  simp only [Nat.cast_add, Nat.cast_one] at hm1 hm2
  have hy1 := slash_not_mem_numToChars y
  have hy2 := parseIntChars_numToChars y
  have hsplit : splitOn '/' (padStart2 (numToChars (some (d : Int))) ++
      '/' :: padStart2 (numToChars (some ((m : Int) + 1))) ++ '/' :: numToChars (some y)) =
      [padStart2 (numToChars (some (d : Int))),
        padStart2 (numToChars (some ((m : Int) + 1))), numToChars (some y)] := by
    rw [List.append_assoc, List.cons_append, splitOn_append _ _ _ hd1, splitOn_append _ _ _ hm1,
      splitOn_of_not_mem _ _ hy1]
  have hne : (padStart2 (numToChars (some (d : Int))) ++
      '/' :: padStart2 (numToChars (some ((m : Int) + 1))) ++ '/' :: numToChars (some y)).isEmpty =
      false := by
    cases padStart2 (numToChars (some (d : Int))) <;> rfl
  have hmk := mkDate_of_isDay hday hq
  simp only [parseDMY, formatDateDMY, JsDate.getDate, JsDate.getMonth, JsDate.getFullYear, jsAdd,
    hne, hsplit, hd2, hm2, hy2]
  simp only [Bool.false_eq_true, if_false, add_sub_cancel_right, hmk]


/-- The two dates of an extension whose end is a date, for a booking that ends
in month `m` of a year `y` from 100 on: the check starts on the first day of
the next month, and the new end is the last day of the month `n` months after
month `m` of `y`. -/
theorem extension_dates (y : Int) (m d : Nat) (n : Int) (hm : m ≤ 11) (hy : 100 ≤ y)
    (hvalid : newEndDateOf (checkStartDateOf (.ymd y m d)) n ≠ .invalid) :
    ∃ Y1 M1 Y M,
      checkStartDateOf (.ymd y m d) = .ymd Y1 M1 1 ∧ M1 ≤ 11 ∧
        12 * Y1 + (M1 : Int) = 12 * y + m + 1 ∧
      newEndDateOf (checkStartDateOf (.ymd y m d)) n = .ymd Y M (daysInMonth Y M).toNat ∧
        M ≤ 11 ∧ 12 * Y + (M : Int) = 12 * y + m + n := by
  obtain ⟨Y, M, hend, hM, hidx⟩ := (newEndDateOf_month y m d n hm hy).resolve_left hvalid
  have hstart : checkStartDateOf (.ymd y m d) = mkDate y (m + 1) 1 := by
    simp [checkStartDateOf, JsDate.getFullYear, JsDate.getMonth, jsAdd, newDate]
  have hfy : makeFullYear y = y := by
    simp only [makeFullYear]
    split
    · omega
    · rfl
  rw [hstart, mkDate_first, hfy] at hvalid ⊢
  split
  · exact ⟨_, _, Y, M, rfl, by omega, by omega, by rw [← hend, hstart, mkDate_first, hfy]; simp [*],
      hM, hidx⟩
  · rename_i hr
    exfalso
    apply hvalid
    simp [hr, newEndDateOf, JsDate.getFullYear, JsDate.getMonth, jsAdd, newDate]

/-- The overlap test of the extend handler when the texts of its two dates
parse back. -/
theorem extendOverlaps_iff {booking b : Booking} {checkStartDate newEndDate : JsDate}
    (h1 : parseDMY (some (formatDateDMY checkStartDate)) = some checkStartDate)
    (h2 : parseDMY (some (formatDateDMY newEndDate)) = some newEndDate)
    (hg : falsyNum booking.garaj = false) :
    extendOverlaps booking checkStartDate (formatDateDMY newEndDate) b = true ↔
      b.garaj = booking.garaj ∧ ∃ bStart bEnd, parseDMY b.startMonth = some bStart ∧
        parseDMY b.endMonth = some bEnd ∧
        checkStartDate.le (lastDayOfMonth bEnd) = true ∧
        (lastDayOfMonth bStart).le (lastDayOfMonth newEndDate) = true := by
  unfold extendOverlaps
  rw [h1, h2]
  constructor
  · intro h
    split at h
    · cases h
    · rename_i hf
      simp only [Bool.or_eq_true, not_or, Bool.not_eq_true, bne_eq_false_iff_eq] at hf
      split at h
      · rename_i bStart bEnd cs ce e1 e2 e3 e4
        cases (Option.some.inj e3)
        cases (Option.some.inj e4)
        simp only [Bool.and_eq_true] at h
        exact ⟨hf.2, bStart, bEnd, e1, e2, h.1, h.2⟩
      · cases h
  · rintro ⟨hgar, bStart, bEnd, e1, e2, c1, c2⟩
    simp [hgar, hg, e1, e2, c1, c2]

/-- The answer of the extend handler for an approved booking with a garage
whose end parses, and a positive number of extra months. -/
theorem extendBooking_conflict_iff_any {store : Store} {id : Nat} {extra : JsVal} {n : Int}
    {booking : Booking} {currentEndDate : JsDate}
    (hn : parseInt extra = some n) (hpos : 0 < n) (hchild : child store id = some booking)
    (happ : booking.status = .Approved) (hg : falsyNum booking.garaj = false)
    (hparse : parseDMY booking.endMonth = some currentEndDate) :
    ((extendBooking store id extra).1 = .extensionConflict ↔
      (store.filter (fun b => b.id != id && b.status == .Approved)).any
        (extendOverlaps booking (checkStartDateOf currentEndDate)
          (formatDateDMY (newEndDateOf (checkStartDateOf currentEndDate) n))) = true) ∧
    ((extendBooking store id extra).1 = .extensionConflict →
      (extendBooking store id extra).2 = store) := by
  have hle : ¬ n ≤ 0 := by omega
  unfold extendBooking
  simp only [hn, hle, if_false, hchild, happ, hg, hparse]
  simp only [bne_self_eq_false, Bool.or_self, Bool.false_eq_true, if_false]
  split
  · rename_i h
    exact ⟨by simp [h], fun _ => rfl⟩
  · rename_i h
    exact ⟨by simp [h], by simp⟩

/-- C7 within the range of `Date`.  An Approved booking with a garage ends in
month `m` of a year `y` from 100 on; it is extended by `n > 0` months and the
new end is a date.  Then the check starts on the first day of the month after
`m`, the new end is the last day of the month `n` months after `m`, and the
answer is a conflict exactly when another Approved booking of the same garage
has a period that parses, ends on or after the start of the check, and starts
on or before the new end (months compared on their last days).  On a conflict
the store is unchanged. -/
theorem extendBooking_conflict_in_range {store : Store} {id : Nat} {extra : JsVal} {n : Int}
    {booking : Booking} {y : Int} {m d : Nat}
    (hn : parseInt extra = some n) (hpos : 0 < n) (hchild : child store id = some booking)
    (happ : booking.status = .Approved) (hg : falsyNum booking.garaj = false)
    (hparse : parseDMY booking.endMonth = some (.ymd y m d)) (hy : 100 ≤ y)
    (hvalid : newEndDateOf (checkStartDateOf (.ymd y m d)) n ≠ .invalid) :
    ∃ Y1 M1 Y M,
      checkStartDateOf (.ymd y m d) = .ymd Y1 M1 1 ∧
        12 * Y1 + (M1 : Int) = 12 * y + m + 1 ∧
      newEndDateOf (checkStartDateOf (.ymd y m d)) n = .ymd Y M (daysInMonth Y M).toNat ∧
        12 * Y + (M : Int) = 12 * y + m + n ∧
      ((extendBooking store id extra).1 = .extensionConflict ↔
        ∃ b ∈ store, b.id ≠ id ∧ b.status = .Approved ∧ b.garaj = booking.garaj ∧
          ∃ bStart bEnd, parseDMY b.startMonth = some bStart ∧
            parseDMY b.endMonth = some bEnd ∧
            (JsDate.ymd Y1 M1 1).le (lastDayOfMonth bEnd) = true ∧
            (lastDayOfMonth bStart).le
              (lastDayOfMonth (.ymd Y M (daysInMonth Y M).toNat)) = true) ∧
      ((extendBooking store id extra).1 = .extensionConflict →
        (extendBooking store id extra).2 = store) := by
  have hm : m ≤ 11 := by
    rcases parseDMY_isDay hparse with hinv | hday
    · cases hinv
    · simp only [JsDate.isDay, Bool.and_eq_true, decide_eq_true_eq] at hday
      exact hday.1.1.1
  obtain ⟨Y1, M1, Y, M, hcs, hM1, hidx1, hne, hM, hidx⟩ := extension_dates y m d n hm hy hvalid
  obtain ⟨hiff, hframe⟩ := extendBooking_conflict_iff_any hn hpos hchild happ hg hparse
  refine ⟨Y1, M1, Y, M, hcs, hidx1, hne, hidx, ?_, hframe⟩
  have hday1 : (JsDate.ymd Y1 M1 1).isDay = true := by
    have := newDate_isDay (JsDate.ymd y m d).getFullYear
      (jsAdd (JsDate.ymd y m d).getMonth (some 1)) (some 1)
    rw [show newDate (JsDate.ymd y m d).getFullYear (jsAdd (JsDate.ymd y m d).getMonth (some 1))
      (some 1) = checkStartDateOf (.ymd y m d) from rfl, hcs] at this
    rcases this with h | h
    · cases h
    · exact h
  have hday2 : (JsDate.ymd Y M (daysInMonth Y M).toNat).isDay = true := by
    have := newDate_isDay (checkStartDateOf (.ymd y m d)).getFullYear
      (jsAdd (checkStartDateOf (.ymd y m d)).getMonth (some n)) (some 0)
    rw [show newDate (checkStartDateOf (.ymd y m d)).getFullYear
      (jsAdd (checkStartDateOf (.ymd y m d)).getMonth (some n)) (some 0) =
        newEndDateOf (checkStartDateOf (.ymd y m d)) n from rfl, hne] at this
    rcases this with h | h
    · cases h
    · exact h
  have hr1 := parseDMY_formatDateDMY hday1 (by omega)
  have hr2 := parseDMY_formatDateDMY hday2 (by omega)
  rw [hiff, hne, hcs, List.any_eq_true]
  constructor
  · rintro ⟨b, hb, hov⟩
    obtain ⟨hbs, hcond⟩ := List.mem_filter.1 hb
    simp only [Bool.and_eq_true, bne_iff_ne, ne_eq, beq_iff_eq] at hcond
    obtain ⟨hgar, rest⟩ := (extendOverlaps_iff hr1 hr2 hg).1 hov
    exact ⟨b, hbs, hcond.1, hcond.2, hgar, rest⟩
  · rintro ⟨b, hbs, hid, hst, hgar, rest⟩
    refine ⟨b, List.mem_filter.2 ⟨hbs, by simp [hid, hst]⟩, ?_⟩
    exact (extendOverlaps_iff hr1 hr2 hg).2 ⟨hgar, rest⟩

/-! ## Bookings whose period does not parse -/

theorem lastDayOfMonth_invalid : lastDayOfMonth .invalid = .invalid := rfl

theorem JsDate.le_invalid_right (a : JsDate) : a.le .invalid = false := by
  cases a <;> rfl

theorem occupies_of_unparsable {b : Booking} (h : periodUnusable b) (startDate endDate : JsDate) :
    occupies startDate endDate b = false := by
  cases hocc : occupies startDate endDate b with
  | false => rfl
  | true =>
    obtain ⟨_, bStart, bEnd, h1, h2, h3⟩ := (occupies_iff startDate endDate b).1 hocc
    simp only [periodsIntersect, Bool.and_eq_true] at h3
    rcases h with h | h | h | h
    · rw [h1] at h; cases h
    · rw [h2] at h; cases h
    · rw [h1] at h
      cases (Option.some.inj h)
      have := h3.2
      rw [lastDayOfMonth_invalid] at this
      cases this
    · rw [h2] at h
      cases (Option.some.inj h)
      have := h3.1
      rw [lastDayOfMonth_invalid, JsDate.le_invalid_right] at this
      cases this

theorem filter_erase_of_false {α : Type} [BEq α] [LawfulBEq α] (p : α → Bool) (b : α)
    (hb : p b = false) (l : List α) : (l.erase b).filter p = l.filter p := by
  induction l with
  | nil => rfl
  | cons a l ih =>
    by_cases hab : a = b
    · subst hab
      simp [List.filter_cons, hb]
    · have : (a == b) = false := by simpa using hab
      simp [List.erase_cons, this, List.filter_cons, ih]

theorem filter_filter_ne_of_false {α : Type} [BEq α] [LawfulBEq α] (p : α → Bool) (b : α)
    (hb : p b = false) (l : List α) : (l.filter (fun x => x != b)).filter p = l.filter p := by
  rw [List.filter_filter]
  apply List.filter_congr
  intro x _
  by_cases hx : x = b
  · subst hx
    simp [hb]
  · simp [hx]

theorem occupiedGaraj_eq_filterMap (store : Store) (startDate endDate : JsDate) :
    occupiedGaraj store startDate endDate =
      (store.filter (fun b => occupies startDate endDate b && b.status == Status.Approved)).filterMap
        (fun b => b.garaj) := by
  rw [occupiedGaraj, List.filter_filter]

/-- A booking whose period does not parse adds nothing to `occupiedGaraj`. -/
theorem occupiedGaraj_erase_unparsable (store : Store) {b : Booking}
    (h : periodUnusable b) (startDate endDate : JsDate) :
    occupiedGaraj (store.erase b) startDate endDate = occupiedGaraj store startDate endDate ∧
    occupiedGaraj (store.filter (fun x => x != b)) startDate endDate =
      occupiedGaraj store startDate endDate := by
  have hb : (fun x : Booking => occupies startDate endDate x && x.status == Status.Approved) b =
      false := by
    simp [occupies_of_unparsable h]
  simp only [occupiedGaraj_eq_filterMap]
  rw [filter_erase_of_false _ b hb, filter_filter_ne_of_false _ b hb]
  exact ⟨rfl, rfl⟩

/-- C12. For a candidate period whose two dates parse, a stored booking `b`
(Approved or not) whose `startMonth` or `endMonth` is missing, does not parse
or parses to `Invalid Date` does not make `getAvailableGarage` throw, and the
list returned is the list returned for the store without `b`. -/
theorem getAvailableGarage_unparsable_booking (store : Store) (s e : Option String)
    (startDate endDate : JsDate) (b : Booking)
    (hs : parseDMY s = some startDate) (he : parseDMY e = some endDate)
    (hbad : parseDMY b.startMonth = none ∨ parseDMY b.endMonth = none ∨
      parseDMY b.startMonth = some .invalid ∨ parseDMY b.endMonth = some .invalid) :
    (parseDMY none = none ∧ parseDMY (some "") = none) ∧
    ∃ available, getAvailableGarage store s e = some available ∧
      getAvailableGarage (store.erase b) s e = some available ∧
      getAvailableGarage (store.filter (fun x => x != b)) s e = some available := by
  refine ⟨⟨rfl, rfl⟩, _, getAvailableGarage_eq store hs he, ?_, ?_⟩
  · rw [getAvailableGarage_eq _ hs he, (occupiedGaraj_erase_unparsable store hbad _ _).1]
  · rw [getAvailableGarage_eq _ hs he, (occupiedGaraj_erase_unparsable store hbad _ _).2]

/-- Garage 1 is held by `corruptBooking` only: it is available in January 2025. -/
theorem getAvailableGarage_unparsable_booking_witness :
    ∃ available,
      getAvailableGarage (corruptBooking :: fullStore.drop 1) (some "01/01/2025")
        (some "31/01/2025") = some available ∧
      getAvailableGarage ((corruptBooking :: fullStore.drop 1).erase corruptBooking)
        (some "01/01/2025") (some "31/01/2025") = some available ∧
      available = [1] := by
  obtain ⟨_, available, h1, h2, _⟩ :=
    getAvailableGarage_unparsable_booking (corruptBooking :: fullStore.drop 1)
      (some "01/01/2025") (some "31/01/2025") (.ymd 2025 0 1) (.ymd 2025 0 31) corruptBooking
      (by decide) (by decide) (Or.inl (by decide))
  refine ⟨available, h1, h2, ?_⟩
  have h3 : getAvailableGarage (corruptBooking :: fullStore.drop 1) (some "01/01/2025")
      (some "31/01/2025") = some [1] := by decide
  rw [h1] at h3
  exact Option.some.inj h3

theorem scanStep_of_missing (store : Store) {b : Booking}
    (h : falsyStr b.startMonth = true ∨ falsyStr b.endMonth = true) :
    scanStep store b = some store := by
  unfold scanStep
  rcases h with h | h <;> simp [h]

theorem scanStep_of_unparsable (store : Store) {b : Booking}
    (h1 : falsyStr b.startMonth = false) (h2 : falsyStr b.endMonth = false)
    (h : parseDMY b.startMonth = none ∨ parseDMY b.endMonth = none) :
    scanStep store b = none := by
  have hg : getAvailableGarage store b.startMonth b.endMonth = none := by
    unfold getAvailableGarage
    rcases h with h | h
    · rw [h]
    · rw [h]
      cases parseDMY b.startMonth <;> rfl
  simp [scanStep, h1, h2, hg]

/-- An entry with a missing period field is skipped: the loop does what it
does on the list without the entry. -/
theorem checkQueueLoop_skip_missing (pre : List Booking) :
    ∀ (post : List Booking) (store : Store) {b : Booking},
      falsyStr b.startMonth = true ∨ falsyStr b.endMonth = true →
      checkQueueLoop (pre ++ b :: post) store = checkQueueLoop (pre ++ post) store := by
  induction pre with
  | nil =>
    intro post store b h
    simp only [List.nil_append, checkQueueLoop, scanStep_of_missing store h]
  | cons a pre ih =>
    intro post store b h
    simp only [List.cons_append, checkQueueLoop]
    cases scanStep store a with
    | none => rfl
    | some next => exact ih post next h

/-- An entry with a missing period field is in the store after the loop as it
was before. -/
theorem mem_checkQueueLoop_of_missing {pre post : List Booking} {store : Store} {b : Booking}
    (hinv : LoopInv (pre ++ b :: post) store)
    (h : falsyStr b.startMonth = true ∨ falsyStr b.endMonth = true) :
    b ∈ checkQueueLoop (pre ++ b :: post) store := by
  rw [checkQueueLoop_skip_missing pre post store h]
  have hnd := hinv.nodupList
  rw [List.map_append, List.map_cons] at hnd
  have hsub : (pre ++ post).Sublist (pre ++ b :: post) :=
    List.Sublist.append (List.Sublist.refl pre) (List.sublist_cons_self b post)
  have hinv' : LoopInv (pre ++ post) store :=
    { nodup := hinv.nodup
      nodupList := hinv.nodupList.sublist (hsub.map _)
      mem := fun x hx => hinv.mem x (hsub.subset hx)
      pending := fun x hx => hinv.pending x (hsub.subset hx) }
  apply mem_checkQueueLoop_of_not_scanned _ hinv' (hinv.mem b (by simp))
  intro x hx e
  have hdis := List.nodup_append.1 hnd
  rcases List.mem_append.1 hx with hx | hx
  · exact hdis.2.2 (List.mem_map_of_mem (fun b => b.id) hx) (e ▸ List.mem_cons_self _ _)
  · have := (List.nodup_cons.1 hdis.2.1).1
    exact this (e ▸ List.mem_map_of_mem (fun b => b.id) hx)

/-- An entry whose period fields are present but do not parse ends the loop:
no entry after it is scanned. -/
theorem checkQueueLoop_stops_at_unparsable (pre post : List Booking) (store : Store)
    {b : Booking} (h1 : falsyStr b.startMonth = false) (h2 : falsyStr b.endMonth = false)
    (h : parseDMY b.startMonth = none ∨ parseDMY b.endMonth = none) :
    checkQueueLoop (pre ++ b :: post) store = checkQueueLoop pre store := by
  cases hc : loopCompletes pre store with
  | false => exact checkQueueLoop_append_of_throws pre _ store hc
  | true =>
    rw [checkQueueLoop_append_of_completes pre _ store hc]
    simp only [checkQueueLoop, scanStep_of_unparsable _ h1 h2 h]

/-- C11, failing input.  Two bookings wait and all garages are free; the first
has the text `soon` as `startMonth`.  The run ends at the first entry and
leaves the second Pending, while the run without the first entry promotes the
second to garage 1.  (An entry whose `startMonth` is missing is skipped and
the second is promoted.) -/
theorem checkQueue_stops_at_unparsable_entry :
    parseDMY unparsablePending.startMonth = none ∧
    pendingBookings [unparsablePending, laterPending] = [unparsablePending, laterPending] ∧
    loopCompletes [unparsablePending, laterPending] [unparsablePending, laterPending] = false ∧
    checkQueue [unparsablePending, laterPending] = [unparsablePending, laterPending] ∧
    checkQueue [laterPending] = [{ laterPending with garaj := some 1, status := .Approved }] ∧
    checkQueue [{ unparsablePending with startMonth := none }, laterPending] =
      [{ unparsablePending with startMonth := none },
        { laterPending with garaj := some 1, status := .Approved }] := by
  decide

/-! ## The garage of every record is in the pool -/

theorem garajInRange_of_mem_available {store : Store} {s e : Option String}
    {available : List Int} (h : getAvailableGarage store s e = some available) {g : Int}
    (hg : g ∈ available) {b : Booking} (hb : b.garaj = some g) : garajInRange b :=
  Or.inr ⟨g, hb, getAvailableGarage_mem_pool h hg⟩

theorem slotsInRange_update {store : Store} (h : SlotsInRange store) {id : Nat}
    {data : Booking → Booking} {fresh : Booking}
    (hdata : ∀ b, garajInRange b → garajInRange (data b)) (hfresh : garajInRange fresh) :
    SlotsInRange (update store id data fresh) := by
  intro r hr
  rcases mem_update hr with ⟨hr', _⟩ | rfl | ⟨b, hb, _, rfl⟩
  · exact h r hr'
  · exact hfresh
  · exact hdata b (h b hb)

theorem slotsInRange_append {store : Store} (h : SlotsInRange store) {r : Booking}
    (hr : garajInRange r) : SlotsInRange (store ++ [r]) := by
  intro b hb
  rcases List.mem_append.1 hb with hb | hb
  · exact h b hb
  · rw [List.mem_singleton] at hb
    subst hb
    exact hr

theorem slotsInRange_createBooking {store : Store} (h : SlotsInRange store) (key : Nat)
    (req : CreateRequest) : SlotsInRange (createBooking store key req).2 := by
  rcases createBooking_store store key req with heq |
    ⟨startDate, available, g, st, hav, heq, hg⟩
  · rw [heq]; exact h
  · rw [heq]
    apply slotsInRange_append h
    rcases hg with ⟨rfl, _⟩ | ⟨n, rfl, hn, _⟩
    · exact Or.inl rfl
    · exact garajInRange_of_mem_available hav hn rfl

theorem slotsInRange_assignGaraj {store : Store} (h : SlotsInRange store) (id : Nat)
    (garaj : JsVal) : SlotsInRange (assignGaraj store id garaj).2 := by
  unfold Garage.assignGaraj
  split
  · exact h
  · split
    · exact h
    · split
      · exact h
      · rename_i available hav
        split
        · exact h
        · rename_i g _
          split
          · exact h
          · rename_i hmem
            have hg : g ∈ available := by simpa using hmem
            exact slotsInRange_update h (fun b _ => garajInRange_of_mem_available hav hg rfl)
              (garajInRange_of_mem_available hav hg rfl)

theorem slotsInRange_scanStep {store next : Store} {b : Booking} (h : SlotsInRange store)
    (hs : scanStep store b = some next) : SlotsInRange next := by
  unfold Garage.scanStep at hs
  split at hs
  · cases (Option.some.inj hs); exact h
  · split at hs
    · cases hs
    · cases (Option.some.inj hs); exact h
    · rename_i first tl hav
      cases (Option.some.inj hs)
      have hg : first ∈ first :: tl := List.mem_cons_self _ _
      exact slotsInRange_update h (fun b _ => garajInRange_of_mem_available hav hg rfl)
        (garajInRange_of_mem_available hav hg rfl)

theorem slotsInRange_checkQueueLoop (l : List Booking) :
    ∀ {store : Store}, SlotsInRange store → SlotsInRange (checkQueueLoop l store) := by
  induction l with
  | nil => intro store h; exact h
  | cons b l ih =>
    intro store h
    cases hs : Garage.scanStep store b with
    | none =>
      simp only [Garage.checkQueueLoop, hs]
      exact h
    | some next =>
      simp only [Garage.checkQueueLoop, hs]
      exact ih (slotsInRange_scanStep h hs)

theorem slotsInRange_checkQueue {store : Store} (h : SlotsInRange store) :
    SlotsInRange (checkQueue store) :=
  slotsInRange_checkQueueLoop _ h

theorem slotsInRange_extendBooking {store : Store} (h : SlotsInRange store) (id : Nat)
    (extra : JsVal) : SlotsInRange (extendBooking store id extra).2 := by
  unfold Garage.extendBooking
  split
  · exact h
  · split
    · exact h
    · split
      · exact h
      · rename_i booking hchild
        split
        · exact h
        · split
          · exact h
          · dsimp only
            split
            · exact h
            · exact slotsInRange_update h (fun b hb => hb) (h booking (List.mem_of_find?_eq_some hchild))

theorem slotsInRange_remove {store : Store} (h : SlotsInRange store) (id : Nat) :
    SlotsInRange (remove store id) :=
  fun b hb => h b (List.mem_filter.1 hb).1

/-- Each operation keeps every `garaj` in range. -/
theorem slotsInRange_applyOp {store : Store} (h : SlotsInRange store) (op : Op) :
    SlotsInRange (applyOp store op) := by
  cases op with
  | create key req => exact slotsInRange_createBooking h key req
  | assign id garaj => exact slotsInRange_assignGaraj h id garaj
  | reject id => exact slotsInRange_update h (fun b hb => hb) (Or.inl rfl)
  | cancel id =>
    exact slotsInRange_checkQueue (slotsInRange_update h (fun _ _ => Or.inl rfl) (Or.inl rfl))
  | extend id extra => exact slotsInRange_extendBooking h id extra
  | delete id => exact slotsInRange_checkQueue (slotsInRange_remove h id)
  | checkQueue => exact slotsInRange_checkQueue h

/-- C13. In every store that a sequence of create, assign, reject, cancel,
extend, delete and `checkQueue` operations reaches from the empty store,
whatever the requests hold, the `garaj` of every record is `null` or an
integer of `1..totalGaraj`. -/
theorem reachable_slots_in_range (store : Store) (h : Reachable store) :
    ∀ b ∈ store, b.garaj = none ∨ ∃ g, b.garaj = some g ∧ 1 ≤ g ∧ g ≤ (totalGaraj : Int) := by
  induction h with
  | empty => intro b hb; simp at hb
  | step store op _ _ ih => exact slotsInRange_applyOp ih op

/-- The store after `slotOps` is reachable, and its record with key 2, which
the last assignment moved to garage 5, has a `garaj` of `1..8`. -/
theorem reachable_slots_in_range_witness :
    Reachable (run [] slotOps) ∧
    ∃ b ∈ run [] slotOps, b.id = 2 ∧ b.garaj = some 5 ∧
      (b.garaj = none ∨ ∃ g, b.garaj = some g ∧ 1 ≤ g ∧ g ≤ (totalGaraj : Int)) :=
  have hr : Reachable (run [] slotOps) := reachable_run slotOps [] Reachable.empty (by decide)
  ⟨hr,
    { id := 2, username := "ali", studentName := "Ali", studentID := "S1",
      startMonth := some "01/01/2025", endMonth := some "31/05/2025", duration := some 5,
      garaj := some 5, status := .Approved },
    by decide, rfl, rfl, reachable_slots_in_range (run [] slotOps) hr _ (by decide)⟩

end Garage
